import Mathlib

/-!
Verification of the ar-workflow-builder specification against its source.

The developments below shallowly embed the parts of the code that the
claims concern:

* `server/index.ts` — `validateIncoming`, `normalizeWorkflow`,
  `normalizeGeneratedWorkflow`, `extractJsonFromText`, `readWorkflow`,
  `listWorkflows`, and the `GET /api/workflows/:workflowUUID` route;
* `src/unnamed/part_003` — the variant `normalizeWorkflow` found there
  (its `durationSec`/`page` computations differ from `server/index.ts`);
* `src/components/ARRunner.tsx` — the step-navigation and countdown-timer
  state machine.

Modelling conventions:

* JavaScript numbers are modelled by `JsNum`: a finite rational, `NaN`,
  or a signed infinity.  (IEEE-754 granularity is not modelled; every
  comparison/rounding operation the sources perform is exact on the
  rationals that can arise here.)
* JSON values (request bodies, values produced by `JSON.parse`) are
  modelled by the `Json` inductive.  Property access on a non-object
  yields `undefined`, modelled as `none`; property access on `null`
  throws in JS, so functions that perform it return `Option`/`none`
  on that input.
* `Math.round x = ⌊x + 1/2⌋` and `Math.floor` are expressed through
  integer division on numerator/denominator so that they evaluate by
  kernel reduction; `jsRound_eq_floor`/`jsFloor_eq_floor` relate them
  to the mathematical floor.
-/

namespace ARWB

/-! ### JavaScript string helpers -/

/-- Whitespace recognised by `String.prototype.trim` (the ASCII part,
which is all that the sources can produce). -/
def isWsChar (c : Char) : Bool :=
  c == ' ' || c == '\t' || c == '\n' || c == '\r' || c == '\x0b' || c == '\x0c'

def trimList (l : List Char) : List Char :=
  ((l.dropWhile isWsChar).reverse.dropWhile isWsChar).reverse

/-- JS `s.trim()`. -/
def jsTrim (s : String) : String := ⟨trimList s.data⟩

/-- Characters kept by `safeId`'s regex `[a-zA-Z0-9-_]`. -/
def isIdChar (c : Char) : Bool := c.isAlpha || c.isDigit || c == '-' || c == '_'

/-- `safeId` from server/index.ts: `id.replace(/[^a-zA-Z0-9-_]/g, "")`. -/
def safeId (s : String) : String := ⟨s.data.filter isIdChar⟩

/-- Decimal digit character. -/
def digitChar (d : Nat) : Char := Char.ofNat (48 + d)

/-- Decimal digits of `n`, most significant first (fuel-driven so that it
evaluates by kernel reduction). -/
def natDigsF : Nat → Nat → List Char
  | 0, _ => []
  | f + 1, n => if n = 0 then [] else natDigsF f (n / 10) ++ [digitChar (n % 10)]

def natDigs (n : Nat) : List Char := natDigsF n n

/-- Decimal representation of a natural number, as produced by JS string
interpolation of a nonnegative integer. -/
def natRepr (n : Nat) : String := ⟨if n = 0 then ['0'] else natDigs n⟩

/-! ### JavaScript numbers -/

/-- A JavaScript number: a finite value, `NaN`, or a signed infinity. -/
inductive JsNum where
  | fin (q : ℚ)
  | nan
  | inf
  | ninf
deriving DecidableEq

namespace JsNum

/-- `Number.isFinite` on a number. -/
def isFiniteB : JsNum → Bool
  | fin _ => true
  | _ => false

/-- JS `x > 0` (`NaN > 0` is false, `Infinity > 0` is true). -/
def gtZero : JsNum → Bool
  | fin q => 0 < q.num
  | inf => true
  | _ => false

/-- JS `x >= 1`. -/
def geOne : JsNum → Bool
  | fin q => (q.den : ℤ) ≤ q.num
  | inf => true
  | _ => false

/-- JS `Math.round` (`⌊x + 1/2⌋` on finite values; fixes `NaN`/infinities). -/
def round : JsNum → JsNum
  | fin q => fin (((2 * q.num + (q.den : ℤ)) / (2 * (q.den : ℤ)) : ℤ) : ℚ)
  | x => x

/-- JS `Math.floor` (fixes `NaN`/infinities). -/
def floor : JsNum → JsNum
  | fin q => fin ((q.num / (q.den : ℤ) : ℤ) : ℚ)
  | x => x

end JsNum

/-- The rounding encoding agrees with `⌊q + 1/2⌋`. -/
theorem jsRound_eq_floor (q : ℚ) :
    JsNum.round (.fin q) = .fin ((⌊q + 1 / 2⌋ : ℤ) : ℚ) := by
  have hden : ((q.den : ℚ)) ≠ 0 := by positivity
  have hnum : (q.num : ℚ) = q * q.den := (div_eq_iff hden).mp (Rat.num_div_den q)
  have h1 : ((2 * q.den : ℕ) : ℚ) ≠ 0 := by positivity
  have hq : q + 1 / 2 = ((2 * q.num + (q.den : ℤ) : ℤ) : ℚ) / ((2 * q.den : ℕ) : ℚ) := by
    rw [eq_div_iff h1]
    push_cast
    rw [hnum]
    ring
  have hf : ⌊q + 1 / 2⌋ = (2 * q.num + (q.den : ℤ)) / ((2 * q.den : ℕ) : ℤ) := by
    rw [hq, Rat.floor_intCast_div_natCast]
  unfold JsNum.round
  rw [hf, show ((2 * q.den : ℕ) : ℤ) = 2 * (q.den : ℤ) by push_cast; ring]

/-- The floor encoding agrees with `⌊q⌋`. -/
theorem jsFloor_eq_floor (q : ℚ) :
    JsNum.floor (.fin q) = .fin ((⌊q⌋ : ℤ) : ℚ) := by
  rw [Rat.floor_def]
  rfl

/-- `x > 0` agrees with the rational order on finite values. -/
theorem gtZero_fin (q : ℚ) : JsNum.gtZero (.fin q) = decide (0 < q) := by
  unfold JsNum.gtZero
  rcases lt_or_le 0 q with h | h
  · simp [Rat.num_pos.mpr h, h]
  · simp [not_lt.mpr h, not_lt.mpr (Rat.num_nonpos.mpr h)]

/-- `x >= 1` agrees with the rational order on finite values. -/
theorem geOne_fin (q : ℚ) : JsNum.geOne (.fin q) = decide (1 ≤ q) := by
  unfold JsNum.geOne
  have h : ((q.den : ℤ) ≤ q.num) ↔ (1 ≤ q) := by
    rw [Rat.le_def]
    simp
  by_cases h1 : 1 ≤ q
  · simp [h.mpr h1, h1]
  · have h2 : ¬ ((q.den : ℤ) ≤ q.num) := fun hc => h1 (h.mp hc)
    simp [h1, h2]

/-! ### JSON values -/

/-- A parsed JSON value (the domain of `req.body` and of everything
`JSON.parse` can return). -/
inductive Json where
  | null
  | bool (b : Bool)
  | num (n : JsNum)
  | str (s : String)
  | arr (elems : List Json)
  | obj (fields : List (String × Json))

/-- Field lookup in an object literal (objects arriving through
`JSON.parse` have distinct keys, so first-match is exact). -/
def lookupField (k : String) : List (String × Json) → Option Json
  | [] => none
  | (k', v) :: rest => if k' = k then some v else lookupField k rest

/-- JS property access `o[k]`: `undefined` (`none`) unless `o` is an
object with the field. -/
def Json.getF : Json → String → Option Json
  | .obj fs, k => lookupField k fs
  | _, _ => none

/-- JS truthiness of a JSON value. -/
def Json.truthy : Json → Bool
  | .null => false
  | .bool b => b
  | .num (.fin q) => q.num != 0
  | .num .nan => false
  | .num .inf => true
  | .num .ninf => true
  | .str s => s != ""
  | .arr _ => true
  | .obj _ => true

/-! ### Canonical workflow records (server/index.ts types) -/

/-- `WorkflowStep` from server/index.ts. -/
structure WStep where
  stepId : String
  order : JsNum
  title : String
  description : Option String
  durationSec : Option JsNum
  page : Option JsNum
deriving DecidableEq

/-- `WorkflowPayload` from server/index.ts. -/
structure WorkflowPayload where
  workflowUUID : String
  workflowId : String
  name : String
  steps : List WStep
  createdAt : String
  updatedAt : String
deriving DecidableEq

/-! ### validateIncoming (server/index.ts lines 77–83) -/

/-- `validateIncoming` from server/index.ts. -/
def validateIncoming (body : Json) : Except String Unit :=
  if !body.truthy then .error "Missing body"
  else match body.getF "name" with
    | some (.str s) =>
      if jsTrim s = "" then .error "Missing name"
      else match body.getF "steps" with
        | some (.arr l) =>
          if l.isEmpty then .error "steps must not be empty" else .ok ()
        | _ => .error "steps must be an array"
    | _ => .error "Missing name"

/-! ### normalizeWorkflow (server/index.ts lines 85–109)

`body.workflowUUID || newUUID()` and `new Date().toISOString()` are
nondeterministic, so the fresh UUID and the current time are passed as
parameters `uuid`/`now`.  JS evaluates `safeId(x)` only on strings; a
truthy non-string argument would throw `TypeError` inside `replace`, and
property access on `null` throws, so those paths yield `none`. -/

/-- JS `v || fallback` where the result is then used as a string:
`none` models the `TypeError` a truthy non-string would cause. -/
def jsOrString (v : Option Json) (fallback : String) : Option String :=
  match v with
  | some j => if j.truthy then (match j with | .str s => some s | _ => none) else some fallback
  | none => some fallback

/-- Index-aware `Option`-valued map, used for `body.steps.map((s, idx) => …)`. -/
def mapIdxOptFrom {α β : Type} (f : Nat → α → Option β) : Nat → List α → Option (List β)
  | _, [] => some []
  | i, a :: l => do
    let b ← f i a
    let bs ← mapIdxOptFrom f (i + 1) l
    some (b :: bs)

def mapIdxOpt {α β : Type} (f : Nat → α → Option β) (l : List α) : Option (List β) :=
  mapIdxOptFrom f 0 l

/-- The step normalizer inside `normalizeWorkflow` (server/index.ts
lines 92–99).  `none` models the `TypeError` thrown on a `null` entry
(property access) or on a truthy non-string `stepId` (`replace`). -/
def normStep (idx : Nat) (s : Json) : Option WStep :=
  match s with
  | .null => none
  | _ => do
    let sid ← jsOrString (s.getF "stepId") ("step-" ++ natRepr (idx + 1))
    some {
      stepId := safeId sid
      order := match s.getF "order" with
        | some (.num n) => if n.isFiniteB then n else .fin ((idx + 1 : ℕ) : ℚ)
        | _ => .fin ((idx + 1 : ℕ) : ℚ)
      title := match s.getF "title" with
        | some (.str t) => if jsTrim t ≠ "" then jsTrim t else "Step " ++ natRepr (idx + 1)
        | _ => "Step " ++ natRepr (idx + 1)
      description := match s.getF "description" with
        | some (.str d) => some d
        | _ => none
      durationSec := match s.getF "durationSec" with
        | some (.num n) => if n.isFiniteB && n.gtZero then some n.round else none
        | _ => none
      page := match s.getF "page" with
        | some (.num n) => if n.isFiniteB && n.geOne then some n.floor else none
        | _ => none }

/-- The string value of a JSON field, when `typeof v === "string"`. -/
def getStr? : Option Json → Option String
  | some (.str s) => some s
  | _ => none

/-- The element list of a JSON field, when `Array.isArray(v)`. -/
def getArr? : Option Json → Option (List Json)
  | some (.arr l) => some l
  | _ => none

/-- `normalizeWorkflow` from server/index.ts (lines 85–109). -/
def normalizeWorkflow (uuid now : String) (body : Json) : Option WorkflowPayload := do
  let uuidRaw ← jsOrString (body.getF "workflowUUID") uuid
  let workflowUUID := safeId uuidRaw
  let idRaw ← jsOrString (body.getF "workflowId") workflowUUID
  let workflowId := safeId idRaw
  let createdAt := (getStr? (body.getF "createdAt")).getD now
  let nameStr ← getStr? (body.getF "name")
  let rawSteps ← getArr? (body.getF "steps")
  let steps ← mapIdxOpt normStep rawSteps
  some {
    workflowUUID
    workflowId
    name := jsTrim nameStr
    steps
    createdAt
    updatedAt := now }

/-! ### Inversion lemmas for `normalizeWorkflow` -/

theorem mapIdxOptFrom_length {α β : Type} (f : Nat → α → Option β) :
    ∀ (i : Nat) (l : List α) (bs : List β),
      mapIdxOptFrom f i l = some bs → bs.length = l.length := by
  intro i l
  induction l generalizing i with
  | nil =>
    intro bs h
    simp [mapIdxOptFrom] at h
    simp [← h]
  | cons a t ih =>
    intro bs h
    simp only [mapIdxOptFrom, Option.bind_eq_bind, Option.bind_eq_some] at h
    obtain ⟨b, _, bs', hbs', hcons⟩ := h
    obtain rfl := Option.some_inj.mp hcons
    simp [ih (i + 1) bs' hbs']

theorem mapIdxOptFrom_get {α β : Type} (f : Nat → α → Option β) :
    ∀ (i : Nat) (l : List α) (bs : List β),
      mapIdxOptFrom f i l = some bs →
      ∀ (j : Nat) (hj : j < l.length) (hb : j < bs.length),
        f (i + j) (l.get ⟨j, hj⟩) = some (bs.get ⟨j, hb⟩) := by
  intro i l
  induction l generalizing i with
  | nil =>
    intro bs _ j hj
    exact absurd hj (by simp)
  | cons a t ih =>
    intro bs h j hj hb
    simp only [mapIdxOptFrom, Option.bind_eq_bind, Option.bind_eq_some] at h
    obtain ⟨b, hb0, bs', hbs', hcons⟩ := h
    obtain rfl := Option.some_inj.mp hcons
    cases j with
    | zero => simpa using hb0
    | succ j' =>
      have := ih (i + 1) bs' hbs' j' (by simpa using hj) (by simpa using hb)
      simpa [Nat.add_assoc, Nat.add_comm 1 j'] using this

/-- Unfolding `normalizeWorkflow`: the produced record, given the
intermediate values of its let-chain. -/
theorem normalizeWorkflow_eq (uuid now : String) (body : Json)
    (wf : WorkflowPayload) (h : normalizeWorkflow uuid now body = some wf) :
    ∃ (uuidRaw idRaw nameStr : String) (l : List Json) (steps : List WStep),
      jsOrString (body.getF "workflowUUID") uuid = some uuidRaw ∧
      jsOrString (body.getF "workflowId") (safeId uuidRaw) = some idRaw ∧
      getStr? (body.getF "name") = some nameStr ∧
      getArr? (body.getF "steps") = some l ∧
      mapIdxOpt normStep l = some steps ∧
      wf = {
        workflowUUID := safeId uuidRaw
        workflowId := safeId idRaw
        name := jsTrim nameStr
        steps
        createdAt := (getStr? (body.getF "createdAt")).getD now
        updatedAt := now } := by
  unfold normalizeWorkflow at h
  simp only [Option.bind_eq_bind, Option.bind_eq_some] at h
  obtain ⟨uuidRaw, h1, idRaw, h2, nameStr, h3, l, h4, steps, h5, h6⟩ := h
  exact ⟨uuidRaw, idRaw, nameStr, l, steps, h1, h2, h3, h4, h5, (Option.some_inj.mp h6).symm⟩

/-- The `order` field produced by `normStep`. -/
theorem normStep_order (idx : Nat) (s : Json) (st : WStep)
    (h : normStep idx s = some st) :
    st.order = (match s.getF "order" with
      | some (.num n) => if n.isFiniteB then n else .fin ((idx + 1 : ℕ) : ℚ)
      | _ => .fin ((idx + 1 : ℕ) : ℚ)) := by
  cases s
  case null => simp [normStep] at h
  all_goals
    simp only [normStep, Option.bind_eq_bind, Option.bind_eq_some] at h
    obtain ⟨sid, _, h2⟩ := h
    obtain rfl := Option.some_inj.mp h2
    rfl

/-! ### C1 -/

/-- C1 (amended): for every input accepted by `validateIncoming`,
`normalizeWorkflow` preserves the number of steps, keeps a caller-supplied
finite numeric `order` verbatim, and assigns `order = i + 1` exactly to the
steps whose input entry carries no finite numeric `order`; in particular a
workflow none of whose entries carries a finite numeric `order` gets the
dense sequence 1..N. -/
theorem c1_order_positional (uuid now : String) (body : Json) (wf : WorkflowPayload)
    (l : List Json) (hsteps : body.getF "steps" = some (.arr l))
    (_hv : validateIncoming body = .ok ())
    (hn : normalizeWorkflow uuid now body = some wf) :
    wf.steps.length = l.length ∧
    (∀ (i : Nat) (hi : i < wf.steps.length) (hl : i < l.length),
      (∀ n : JsNum, (l.get ⟨i, hl⟩).getF "order" = some (.num n) → n.isFiniteB = true →
        (wf.steps.get ⟨i, hi⟩).order = n) ∧
      ((∀ n : JsNum, (l.get ⟨i, hl⟩).getF "order" = some (.num n) → n.isFiniteB = false) →
        (wf.steps.get ⟨i, hi⟩).order = .fin ((i + 1 : ℕ) : ℚ))) := by
  obtain ⟨uuidRaw, idRaw, nameStr, l', steps, _, _, _, hl', hmap, hwf⟩ :=
    normalizeWorkflow_eq uuid now body wf hn
  rw [hsteps] at hl'
  obtain rfl : l = l' := by simpa [getArr?] using hl'
  have hstepseq : wf.steps = steps := by rw [hwf]
  have hlen : wf.steps.length = l.length := by
    rw [hstepseq]
    exact mapIdxOptFrom_length normStep 0 l steps hmap
  refine ⟨hlen, fun i hi hl => ?_⟩
  have hget : normStep i (l.get ⟨i, hl⟩) = some (wf.steps.get ⟨i, hi⟩) := by
    have := mapIdxOptFrom_get normStep 0 l steps hmap i hl (by rw [← hstepseq]; exact hi)
    simpa [hstepseq] using this
  have horder := normStep_order i (l.get ⟨i, hl⟩) (wf.steps.get ⟨i, hi⟩) hget
  constructor
  · intro n hfield hfin
    rw [horder, hfield]
    simp [hfin]
  · intro hnone
    rw [horder]
    cases hfield : (l.get ⟨i, hl⟩).getF "order" with
    | none => rfl
    | some v =>
      cases v with
      | num n => simp [hnone n hfield]
      | null => rfl
      | bool b => rfl
      | str s => rfl
      | arr xs => rfl
      | obj fs => rfl

/-- Concrete input for the C1 counterexample: a validated body whose single
step carries the caller-supplied finite order 42. -/
def c1Body : Json :=
  .obj [("name", .str "W"),
        ("steps", .arr [.obj [("order", .num (.fin 42)), ("title", .str "T")]])]

/-- C1 is false as stated: on a validated input whose first step carries the
caller-supplied order 42, `normalizeWorkflow` emits order 42, not the 1-based
position 1. -/
theorem c1_counterexample :
    validateIncoming c1Body = .ok () ∧
    (normalizeWorkflow "wf-1" "t0" c1Body).map (fun wf => wf.steps.map WStep.order)
      = some [.fin 42] ∧
    JsNum.fin 42 ≠ JsNum.fin ((0 + 1 : ℕ) : ℚ) := by
  refine ⟨rfl, rfl, fun h => ?_⟩
  have h42 : (42 : ℚ) = ((0 + 1 : ℕ) : ℚ) := by injection h
  norm_num at h42

/-- Concrete input for the C1 witness: two steps with no `order` fields. -/
def c1wBody : Json :=
  .obj [("name", .str "W"),
        ("steps", .arr [.obj [("title", .str "A")], .obj [("title", .str "B")]])]

/-- The record `normalizeWorkflow "u" "t" c1wBody` produces. -/
def c1wWf : WorkflowPayload :=
  { workflowUUID := "u"
    workflowId := "u"
    name := "W"
    steps := [
      { stepId := "step-1", order := .fin ((0 + 1 : ℕ) : ℚ), title := "A",
        description := none, durationSec := none, page := none },
      { stepId := "step-2", order := .fin ((1 + 1 : ℕ) : ℚ), title := "B",
        description := none, durationSec := none, page := none }]
    createdAt := "t"
    updatedAt := "t" }

/-- Witness for `c1_order_positional` at a concrete validated input. -/
theorem c1_order_positional_witness :
    c1wWf.steps.length = 2 ∧
    (c1wWf.steps.get ⟨0, by decide⟩).order = .fin ((0 + 1 : ℕ) : ℚ) ∧
    (c1wWf.steps.get ⟨1, by decide⟩).order = .fin ((1 + 1 : ℕ) : ℚ) := by
  have h := c1_order_positional "u" "t" c1wBody c1wWf
    [.obj [("title", .str "A")], .obj [("title", .str "B")]] rfl rfl rfl
  have hnone0 : ∀ n : JsNum,
      (([.obj [("title", .str "A")], .obj [("title", .str "B")]] : List Json).get
        ⟨0, by decide⟩).getF "order" = some (.num n) → n.isFiniteB = false := by
    intro n hn
    exact Option.noConfusion hn
  have hnone1 : ∀ n : JsNum,
      (([.obj [("title", .str "A")], .obj [("title", .str "B")]] : List Json).get
        ⟨1, by decide⟩).getF "order" = some (.num n) → n.isFiniteB = false := by
    intro n hn
    exact Option.noConfusion hn
  refine ⟨h.1, ?_, ?_⟩
  · exact (h.2 0 (by decide) (by decide)).2 hnone0
  · exact (h.2 1 (by decide) (by decide)).2 hnone1

/-! ### C4 -/

/-- The `durationSec` field produced by `normStep`. -/
theorem normStep_durationSec (idx : Nat) (s : Json) (st : WStep)
    (h : normStep idx s = some st) :
    st.durationSec = (match s.getF "durationSec" with
      | some (.num n) => if n.isFiniteB && n.gtZero then some n.round else none
      | _ => none) := by
  cases s
  case null => simp [normStep] at h
  all_goals
    simp only [normStep, Option.bind_eq_bind, Option.bind_eq_some] at h
    obtain ⟨sid, _, h2⟩ := h
    obtain rfl := Option.some_inj.mp h2
    rfl

/-- The `page` field produced by `normStep`. -/
theorem normStep_page (idx : Nat) (s : Json) (st : WStep)
    (h : normStep idx s = some st) :
    st.page = (match s.getF "page" with
      | some (.num n) => if n.isFiniteB && n.geOne then some n.floor else none
      | _ => none) := by
  cases s
  case null => simp [normStep] at h
  all_goals
    simp only [normStep, Option.bind_eq_bind, Option.bind_eq_some] at h
    obtain ⟨sid, _, h2⟩ := h
    obtain rfl := Option.some_inj.mp h2
    rfl

/-- C4 (amended): for `normalizeWorkflow` in server/index.ts the claim holds
as stated: the normalized step contains `durationSec` iff the source value is
a finite number strictly greater than 0 (then rounded to nearest), and
contains `page` iff the source value is a finite number ≥ 1 (then floored);
otherwise the fields are absent.  The `normalizeWorkflow` variant in
src/unnamed/part_003 checks only `typeof === "number"` without finiteness, so
it violates the claim at `Infinity` (see the counterexample). -/
theorem c4_duration_page_omission (uuid now : String) (body : Json) (wf : WorkflowPayload)
    (l : List Json) (hsteps : body.getF "steps" = some (.arr l))
    (hn : normalizeWorkflow uuid now body = some wf) :
    wf.steps.length = l.length ∧
    ∀ (i : Nat) (hi : i < wf.steps.length) (hl : i < l.length),
      ((wf.steps.get ⟨i, hi⟩).durationSec ≠ none ↔
        ∃ q : ℚ, (l.get ⟨i, hl⟩).getF "durationSec" = some (.num (.fin q)) ∧ 0 < q) ∧
      (∀ q : ℚ, (l.get ⟨i, hl⟩).getF "durationSec" = some (.num (.fin q)) → 0 < q →
        (wf.steps.get ⟨i, hi⟩).durationSec = some (.fin ((⌊q + 1 / 2⌋ : ℤ) : ℚ))) ∧
      ((wf.steps.get ⟨i, hi⟩).page ≠ none ↔
        ∃ q : ℚ, (l.get ⟨i, hl⟩).getF "page" = some (.num (.fin q)) ∧ 1 ≤ q) ∧
      (∀ q : ℚ, (l.get ⟨i, hl⟩).getF "page" = some (.num (.fin q)) → 1 ≤ q →
        (wf.steps.get ⟨i, hi⟩).page = some (.fin ((⌊q⌋ : ℤ) : ℚ))) := by
  obtain ⟨uuidRaw, idRaw, nameStr, l', steps, _, _, _, hl', hmap, hwf⟩ :=
    normalizeWorkflow_eq uuid now body wf hn
  rw [hsteps] at hl'
  obtain rfl : l = l' := by simpa [getArr?] using hl'
  have hstepseq : wf.steps = steps := by rw [hwf]
  have hlen : wf.steps.length = l.length := by
    rw [hstepseq]
    exact mapIdxOptFrom_length normStep 0 l steps hmap
  refine ⟨hlen, fun i hi hl => ?_⟩
  have hget : normStep i (l.get ⟨i, hl⟩) = some (wf.steps.get ⟨i, hi⟩) := by
    have := mapIdxOptFrom_get normStep 0 l steps hmap i hl (by rw [← hstepseq]; exact hi)
    simpa [hstepseq] using this
  have hdur := normStep_durationSec i (l.get ⟨i, hl⟩) (wf.steps.get ⟨i, hi⟩) hget
  have hpage := normStep_page i (l.get ⟨i, hl⟩) (wf.steps.get ⟨i, hi⟩) hget
  refine ⟨?_, ?_, ?_, ?_⟩
  · rw [hdur]
    constructor
    · intro hne
      cases hfield : (l.get ⟨i, hl⟩).getF "durationSec" with
      | none => rw [hfield] at hne; simp at hne
      | some v =>
        rw [hfield] at hne
        cases v with
        | num n =>
          cases n with
          | fin q =>
            refine ⟨q, rfl, ?_⟩
            by_contra hq
            simp [JsNum.isFiniteB, gtZero_fin, hq] at hne
          | nan => simp [JsNum.isFiniteB] at hne
          | inf => simp [JsNum.isFiniteB] at hne
          | ninf => simp [JsNum.isFiniteB] at hne
        | null => simp at hne
        | bool b => simp at hne
        | str s => simp at hne
        | arr xs => simp at hne
        | obj fs => simp at hne
    · rintro ⟨q, hfield, hq⟩
      rw [hfield]
      simp [JsNum.isFiniteB, gtZero_fin, hq]
  · intro q hfield hq
    rw [hdur, hfield]
    simp [JsNum.isFiniteB, gtZero_fin, hq]
    rw [jsRound_eq_floor]
    norm_num
  · rw [hpage]
    constructor
    · intro hne
      cases hfield : (l.get ⟨i, hl⟩).getF "page" with
      | none => rw [hfield] at hne; simp at hne
      | some v =>
        rw [hfield] at hne
        cases v with
        | num n =>
          cases n with
          | fin q =>
            refine ⟨q, rfl, ?_⟩
            by_contra hq
            simp [JsNum.isFiniteB, geOne_fin, hq] at hne
          | nan => simp [JsNum.isFiniteB] at hne
          | inf => simp [JsNum.isFiniteB] at hne
          | ninf => simp [JsNum.isFiniteB] at hne
        | null => simp at hne
        | bool b => simp at hne
        | str s => simp at hne
        | arr xs => simp at hne
        | obj fs => simp at hne
    · rintro ⟨q, hfield, hq⟩
      rw [hfield]
      simp [JsNum.isFiniteB, geOne_fin, hq]
  · intro q hfield hq
    rw [hpage, hfield]
    simp [JsNum.isFiniteB, geOne_fin, hq]
    rw [jsFloor_eq_floor]

/-- The `durationSec` computation of the `normalizeWorkflow` variant in
src/unnamed/part_003 (lines 115–118): `typeof x === "number" && x > 0 ?
Math.round(x) : undefined`, with no finiteness check. -/
def p3DurationSec (v : Option Json) : Option JsNum :=
  match v with
  | some (.num n) => if n.gtZero then some n.round else none
  | _ => none

/-- The `page` computation of the `normalizeWorkflow` variant in
src/unnamed/part_003 (lines 119–122): `typeof x === "number" && x >= 1 ?
Math.floor(x) : undefined`, with no finiteness check. -/
def p3Page (v : Option Json) : Option JsNum :=
  match v with
  | some (.num n) => if n.geOne then some n.floor else none
  | _ => none

/-- C4 is false as stated for the src/unnamed/part_003 variant: a source
value of `Infinity` is a non-finite number, yet the output field is present
(and holds `Infinity`) rather than absent. -/
theorem c4_counterexample :
    p3DurationSec (some (.num .inf)) = some .inf ∧
    p3Page (some (.num .inf)) = some .inf ∧
    JsNum.isFiniteB .inf = false :=
  ⟨rfl, rfl, rfl⟩

/-- Concrete input for the C4 witness: one step with `durationSec = 7/2`
and `page = 5/2`. -/
def c4wBody : Json :=
  .obj [("name", .str "W"),
        ("steps", .arr [.obj [("title", .str "T"),
                              ("durationSec", .num (.fin (mkRat 7 2))),
                              ("page", .num (.fin (mkRat 5 2)))]])]

/-- The record `normalizeWorkflow "u" "t" c4wBody` produces. -/
def c4wWf : WorkflowPayload :=
  { workflowUUID := "u"
    workflowId := "u"
    name := "W"
    steps := [
      { stepId := "step-1", order := .fin ((0 + 1 : ℕ) : ℚ), title := "T",
        description := none, durationSec := some ((JsNum.fin (mkRat 7 2)).round),
        page := some ((JsNum.fin (mkRat 5 2)).floor) }]
    createdAt := "t"
    updatedAt := "t" }

/-- Witness for `c4_duration_page_omission` at a concrete input. -/
theorem c4_duration_page_omission_witness :
    (c4wWf.steps.get ⟨0, by decide⟩).durationSec
        = some (.fin ((⌊(mkRat 7 2 : ℚ) + 1 / 2⌋ : ℤ) : ℚ)) ∧
    (c4wWf.steps.get ⟨0, by decide⟩).page
        = some (.fin ((⌊(mkRat 5 2 : ℚ)⌋ : ℤ) : ℚ)) := by
  have h := c4_duration_page_omission "u" "t" c4wBody c4wWf
    [.obj [("title", .str "T"),
           ("durationSec", .num (.fin (mkRat 7 2))),
           ("page", .num (.fin (mkRat 5 2)))]] rfl rfl
  have h72 : (0 : ℚ) < mkRat 7 2 := by
    rw [Rat.mkRat_eq_div]
    norm_num
  have h52 : (1 : ℚ) ≤ mkRat 5 2 := by
    rw [Rat.mkRat_eq_div]
    norm_num
  obtain ⟨-, hi⟩ := h
  obtain ⟨-, hdur, -, hpage⟩ := hi 0 (by decide) (by decide)
  exact ⟨hdur (mkRat 7 2) rfl h72, hpage (mkRat 5 2) rfl h52⟩

/-! ### normalizeGeneratedWorkflow (server/index.ts lines 171–205) -/

/-- `GeneratedStep` from server/index.ts. -/
structure GStep where
  title : String
  description : Option String
  durationSec : Option JsNum
  page : Option JsNum
deriving DecidableEq

/-- `GeneratedWorkflow` from server/index.ts. -/
structure GeneratedWorkflow where
  title : Option String
  steps : List GStep
deriving DecidableEq

/-- The per-step mapper inside `normalizeGeneratedWorkflow`
(server/index.ts lines 182–198).  The map callback only ever throws the
missing-title error. -/
def normGStep (s : Json) : Except String GStep :=
  let t := match s.getF "title" with
    | some (.str x) => jsTrim x
    | _ => ""
  if t = "" then .error "Claude produced a step without a title."
  else .ok {
    title := t
    description := match s.getF "description" with
      | some (.str d) => some (jsTrim d)
      | _ => none
    durationSec := match s.getF "durationSec" with
      | some (.num n) => if n.isFiniteB && n.gtZero then some n.round else none
      | _ => none
    page := match s.getF "page" with
      | some (.num n) => if n.isFiniteB && n.geOne then some n.floor else none
      | _ => none }

/-- `Array.prototype.map` with a throwing callback: the first exception
aborts the whole map. -/
def mapE {α β : Type} (f : α → Except String β) : List α → Except String (List β)
  | [] => .ok []
  | a :: l => match f a with
    | .error e => .error e
    | .ok b => match mapE f l with
      | .error e => .error e
      | .ok bs => .ok (b :: bs)

/-- `!raw || typeof raw !== "object"` is false exactly on arrays and
objects (`null` is falsy, every other JSON value is a non-object). -/
def isObjLike : Json → Bool
  | .arr _ => true
  | .obj _ => true
  | _ => false

/-- `normalizeGeneratedWorkflow` from server/index.ts (lines 171–205). -/
def normalizeGeneratedWorkflow (raw : Json) : Except String GeneratedWorkflow :=
  if isObjLike raw then
    match getArr? (raw.getF "steps") with
    | some l =>
      if l.isEmpty then .error "Claude returned JSON but \x27steps\x27 is missing or empty."
      else
        match mapE normGStep ((l.filter Json.truthy).take 20) with
        | .error e => .error e
        | .ok steps => .ok {
            title := match raw.getF "title" with
              | some (.str t) => some (jsTrim t)
              | _ => none
            steps }
    | none => .error "Claude returned JSON but \x27steps\x27 is missing or empty."
  else .error "Claude returned non-object JSON."

/-! ### C3 -/

/-- Reduction of `normalizeGeneratedWorkflow` on an object whose `steps`
field is an array. -/
theorem normGen_eq (fs : List (String × Json)) (l : List Json)
    (hsteps : getArr? ((Json.obj fs).getF "steps") = some l) :
    normalizeGeneratedWorkflow (.obj fs) =
      (if l.isEmpty then
        (.error "Claude returned JSON but \x27steps\x27 is missing or empty." :
          Except String GeneratedWorkflow)
      else match mapE normGStep ((l.filter Json.truthy).take 20) with
        | .error e => .error e
        | .ok steps => .ok {
            title := match (Json.obj fs).getF "title" with
              | some (.str t) => some (jsTrim t)
              | _ => none
            steps := steps }) := by
  unfold normalizeGeneratedWorkflow
  rw [hsteps]
  rfl

theorem mapE_error_of_mem {α β : Type} (f : α → Except String β) (msg : String)
    (hall : ∀ a e, f a = .error e → e = msg) :
    ∀ (L : List α) (s : α), s ∈ L → f s = .error msg → mapE f L = .error msg := by
  intro L
  induction L with
  | nil => intro s hs; exact absurd hs (by simp)
  | cons a t ih =>
    intro s hs hserr
    cases hfa : f a with
    | error e => simp [mapE, hfa, hall a e hfa]
    | ok b =>
      have hst : s ∈ t := by
        rcases List.mem_cons.mp hs with rfl | hst
        · rw [hfa] at hserr; exact Except.noConfusion hserr
        · exact hst
      simp [mapE, hfa, ih s hst hserr]

/-- C3 (amended): a retained step entry (kept by the falsy filter and the
20-entry truncation) whose `title` coerces to the empty string after
trimming makes `normalizeGeneratedWorkflow` fail with the step-without-a-
title validation error, producing no workflow value.  The legacy
`normalizeWorkflow` in the same file does not fail there: it substitutes
the placeholder `Step <position>` (see the counterexample). -/
theorem c3_step_without_title (raw : Json) (l : List Json) (s : Json)
    (hsteps : getArr? (raw.getF "steps") = some l)
    (hne : l.isEmpty = false)
    (hmem : s ∈ (l.filter Json.truthy).take 20)
    (htitle : (match s.getF "title" with
      | some (.str x) => jsTrim x
      | _ => "") = "") :
    normalizeGeneratedWorkflow raw = .error "Claude produced a step without a title." := by
  have hserr : normGStep s = .error "Claude produced a step without a title." := by
    unfold normGStep
    rw [htitle]
    rfl
  have hallerr : ∀ a e, normGStep a = .error e →
      e = "Claude produced a step without a title." := by
    intro a e ha
    unfold normGStep at ha
    by_cases hta : (match a.getF "title" with
      | some (.str x) => jsTrim x
      | _ => "") = ""
    · rw [if_pos hta] at ha
      exact (Except.error.inj ha).symm
    · rw [if_neg hta] at ha
      exact Except.noConfusion ha
  have hmap := mapE_error_of_mem normGStep
    "Claude produced a step without a title." hallerr
    ((l.filter Json.truthy).take 20) s hmem hserr
  cases raw with
  | obj fs =>
    rw [normGen_eq fs l hsteps, if_neg (by simp [hne]), hmap]
  | arr xs => simp [Json.getF, getArr?] at hsteps
  | null => simp [Json.getF, getArr?] at hsteps
  | bool b => simp [Json.getF, getArr?] at hsteps
  | num n => simp [Json.getF, getArr?] at hsteps
  | str t => simp [Json.getF, getArr?] at hsteps

/-- Concrete input for the C3 counterexample: a validated body whose single
step's title is whitespace only. -/
def c3Body : Json :=
  .obj [("name", .str "W"), ("steps", .arr [.obj [("title", .str "   ")]])]

/-- C3 is false as stated for `normalizeWorkflow` (server/index.ts line 95,
also cited by the claim): a step whose title trims to the empty string does
not fail the normalization — the whole batch succeeds and the step receives
the placeholder title `Step 1`. -/
theorem c3_counterexample :
    validateIncoming c3Body = .ok () ∧
    (normalizeWorkflow "u" "t" c3Body).map (fun wf => wf.steps.map WStep.title)
      = some ["Step 1"] :=
  ⟨rfl, rfl⟩

/-- Witness for `c3_step_without_title` at a concrete input. -/
theorem c3_step_without_title_witness :
    normalizeGeneratedWorkflow (.obj [("steps", .arr [.obj [("title", .str " ")]])])
      = .error "Claude produced a step without a title." := by
  exact c3_step_without_title (.obj [("steps", .arr [.obj [("title", .str " ")]])])
    [.obj [("title", .str " ")]] (.obj [("title", .str " ")])
    rfl rfl (List.mem_cons_self _ _) rfl

/-! ### C2 -/

theorem mapE_ok_length {α β : Type} (f : α → Except String β) :
    ∀ (L : List α) (bs : List β), mapE f L = .ok bs → bs.length = L.length := by
  intro L
  induction L with
  | nil =>
    intro bs h
    simp only [mapE] at h
    obtain rfl := Except.ok.inj h
    rfl
  | cons a t ih =>
    intro bs h
    simp only [mapE] at h
    cases hfa : f a with
    | error e => rw [hfa] at h; exact Except.noConfusion h
    | ok b =>
      rw [hfa] at h
      cases hmt : mapE f t with
      | error e => rw [hmt] at h; exact Except.noConfusion h
      | ok bs' =>
        rw [hmt] at h
        obtain rfl := Except.ok.inj h
        simp [ih bs' hmt]

/-- C2 (amended): `normalizeGeneratedWorkflow` silently drops falsy entries
and keeps at most the first 20 remaining ones, so a successful result has
`min (#valid) 20 ≤ 20` steps — which may be 0: normalization fails only when
the raw `steps` array is missing, not an array, or empty *before* filtering;
a nonempty array all of whose entries are falsy yields an empty workflow
rather than failing.  In particular an input with more than 20 *valid*
entries yields exactly 20 steps, but more than 20 *raw* entries need not. -/
theorem c2_truncation (raw : Json) (l : List Json)
    (hsteps : getArr? (raw.getF "steps") = some l) :
    (∀ w : GeneratedWorkflow, normalizeGeneratedWorkflow raw = .ok w →
      w.steps.length = min (l.filter Json.truthy).length 20 ∧ w.steps.length ≤ 20) ∧
    (l.isEmpty = false → l.filter Json.truthy = [] →
      normalizeGeneratedWorkflow raw = .ok {
        title := match raw.getF "title" with
          | some (.str t) => some (jsTrim t)
          | _ => none
        steps := [] }) := by
  have hobj : ∀ (P : Prop), (∀ fs, raw = .obj fs → P) → P := by
    intro P hp
    cases raw with
    | obj fs => exact hp fs rfl
    | arr xs => simp [Json.getF, getArr?] at hsteps
    | null => simp [Json.getF, getArr?] at hsteps
    | bool b => simp [Json.getF, getArr?] at hsteps
    | num n => simp [Json.getF, getArr?] at hsteps
    | str t => simp [Json.getF, getArr?] at hsteps
  refine hobj _ (fun fs hraw => ?_)
  subst hraw
  constructor
  · intro w hw
    rw [normGen_eq fs l hsteps] at hw
    by_cases hemp : l.isEmpty
    · rw [if_pos hemp] at hw; exact Except.noConfusion hw
    · rw [if_neg hemp] at hw
      cases hmap : mapE normGStep ((l.filter Json.truthy).take 20) with
      | error e => rw [hmap] at hw; exact Except.noConfusion hw
      | ok steps =>
        rw [hmap] at hw
        obtain rfl := Except.ok.inj hw
        have hlen := mapE_ok_length normGStep _ _ hmap
        simp only [List.length_take] at hlen
        constructor
        · simpa [Nat.min_comm] using hlen
        · rw [hlen]; exact min_le_left _ _
  · intro hne hfilter
    rw [normGen_eq fs l hsteps, if_neg (by simp [hne]), hfilter]
    rfl

/-- C2 is false as stated: 21 raw entries, all falsy — more than 20 raw
steps, zero valid ones — and normalization succeeds with an *empty* step
list instead of failing or producing 1..20 (or exactly 20) steps. -/
theorem c2_counterexample :
    normalizeGeneratedWorkflow (.obj [("steps", .arr (List.replicate 21 Json.null))])
      = .ok { title := none, steps := [] } ∧
    (List.replicate 21 Json.null).length = 21 :=
  ⟨rfl, rfl⟩

/-- Concrete input for the C2 witness: three raw entries, one falsy. -/
def c2wRaw : Json :=
  .obj [("steps", .arr [Json.null, .obj [("title", .str "A")], .obj [("title", .str "B")]])]

/-- The output of `normalizeGeneratedWorkflow c2wRaw`. -/
def c2wOut : GeneratedWorkflow :=
  { title := none, steps := [⟨"A", none, none, none⟩, ⟨"B", none, none, none⟩] }

/-- Witness for `c2_truncation` at a concrete input. -/
theorem c2_truncation_witness :
    normalizeGeneratedWorkflow c2wRaw = .ok c2wOut ∧ c2wOut.steps.length = 2 := by
  have h := (c2_truncation c2wRaw
    [Json.null, .obj [("title", .str "A")], .obj [("title", .str "B")]] rfl).1
  exact ⟨rfl, ((h c2wOut rfl).1).trans rfl⟩

/-! ### String lemmas for idempotence -/

theorem dropWhile_eq_self_of_head (p : Char → Bool) (l : List Char)
    (h : ∀ c, l.head? = some c → p c = false) : l.dropWhile p = l := by
  cases l with
  | nil => rfl
  | cons a t => simp [List.dropWhile_cons, h a rfl]

theorem head_dropWhile_false (p : Char → Bool) :
    ∀ (l : List Char) (c : Char), (l.dropWhile p).head? = some c → p c = false := by
  intro l
  induction l with
  | nil => intro c h; simp at h
  | cons a t ih =>
    intro c h
    by_cases hpa : p a
    · rw [List.dropWhile_cons, if_pos hpa] at h
      exact ih c h
    · rw [List.dropWhile_cons, if_neg hpa] at h
      obtain rfl : a = c := by simpa using h
      simpa using hpa

theorem dropWhile_decomp (p : Char → Bool) :
    ∀ l : List Char, ∃ a, l = a ++ l.dropWhile p := by
  intro l
  induction l with
  | nil => exact ⟨[], rfl⟩
  | cons a t ih =>
    by_cases hpa : p a
    · obtain ⟨b, hb⟩ := ih
      exact ⟨a :: b, by simp [List.dropWhile_cons, hpa, ← hb]⟩
    · exact ⟨[], by simp [List.dropWhile_cons, hpa]⟩

theorem mem_of_getLast?_eq (l : List Char) (c : Char) (h : l.getLast? = some c) :
    c ∈ l := by
  obtain ⟨hne, hc⟩ := List.mem_getLast?_eq_getLast (Option.mem_def.mpr h)
  rw [hc]
  exact List.getLast_mem hne

theorem trimList_eq_self (l : List Char)
    (hh : ∀ c, l.head? = some c → isWsChar c = false)
    (hl : ∀ c, l.getLast? = some c → isWsChar c = false) : trimList l = l := by
  unfold trimList
  rw [dropWhile_eq_self_of_head isWsChar l hh]
  rw [dropWhile_eq_self_of_head isWsChar l.reverse
    (fun c hc => hl c (by rwa [List.head?_reverse] at hc))]
  exact List.reverse_reverse l

theorem trimList_idem (l : List Char) : trimList (trimList l) = trimList l := by
  cases hres : trimList l with
  | nil => rfl
  | cons x xs =>
    have hres' : ((l.dropWhile isWsChar).reverse.dropWhile isWsChar).reverse = x :: xs := hres
    apply trimList_eq_self
    · intro c hc
      obtain rfl : x = c := by simpa using hc
      obtain ⟨a, ha⟩ := dropWhile_decomp isWsChar (l.dropWhile isWsChar).reverse
      have hm : l.dropWhile isWsChar = (x :: xs) ++ a.reverse := by
        have h1 : l.dropWhile isWsChar = ((l.dropWhile isWsChar).reverse).reverse :=
          (List.reverse_reverse _).symm
        rw [h1, ha, List.reverse_append, hres']
      exact head_dropWhile_false isWsChar l x (by simp [hm])
    · intro c hc
      rw [← hres', List.getLast?_reverse] at hc
      exact head_dropWhile_false isWsChar (l.dropWhile isWsChar).reverse c hc

theorem jsTrim_idem (s : String) : jsTrim (jsTrim s) = jsTrim s :=
  congrArg String.mk (trimList_idem s.data)

theorem filter_idem (p : Char → Bool) :
    ∀ l : List Char, (l.filter p).filter p = l.filter p := by
  intro l
  induction l with
  | nil => rfl
  | cons a t ih =>
    by_cases hpa : p a
    · simp [List.filter_cons, hpa, ih]
    · simp [List.filter_cons, hpa, ih]

theorem safeId_idem (s : String) : safeId (safeId s) = safeId s :=
  congrArg String.mk (filter_idem isIdChar s.data)

theorem natDigsF_shape :
    ∀ (f n : Nat) (c : Char), c ∈ natDigsF f n → ∃ d, d < 10 ∧ c = digitChar d := by
  intro f
  induction f with
  | zero => intro n c hc; simp [natDigsF] at hc
  | succ f ih =>
    intro n c hc
    unfold natDigsF at hc
    by_cases hn : n = 0
    · simp [hn] at hc
    · rw [if_neg hn] at hc
      rcases List.mem_append.mp hc with h | h
      · exact ih _ c h
      · exact ⟨n % 10, Nat.mod_lt _ (by omega), by simpa using h⟩

theorem isWsChar_digitChar (d : Nat) (hd : d < 10) : isWsChar (digitChar d) = false := by
  interval_cases d <;> decide

theorem natRepr_digits (n : Nat) :
    ∀ c ∈ (natRepr n).data, ∃ d, d < 10 ∧ c = digitChar d := by
  intro c hc
  unfold natRepr at hc
  by_cases hn : n = 0
  · simp [hn] at hc
    exact ⟨0, by omega, hc⟩
  · rw [if_neg hn] at hc
    exact natDigsF_shape n n c hc

theorem natRepr_ne_nil (n : Nat) : (natRepr n).data ≠ [] := by
  unfold natRepr
  by_cases hn : n = 0
  · simp [hn]
  · rw [if_neg hn]
    unfold natDigs
    cases n with
    | zero => exact absurd rfl hn
    | succ m =>
      unfold natDigsF
      rw [if_neg hn]
      simp

/-- The placeholder titles `Step <n>` are fixed by `trim` and nonempty. -/
theorem jsTrim_step_title (pre : String) (n : Nat)
    (hpre : ∀ c, pre.data.head? = some c → isWsChar c = false)
    (hpred : pre.data ≠ []) :
    jsTrim (pre ++ natRepr n) = pre ++ natRepr n := by
  apply congrArg String.mk
  have hdata : (pre ++ natRepr n).data = pre.data ++ (natRepr n).data := rfl
  rw [hdata]
  apply trimList_eq_self
  · intro c hc
    cases hp : pre.data with
    | nil => exact absurd hp hpred
    | cons x xs =>
      rw [hp] at hc
      obtain rfl : x = c := by simpa using hc
      exact hpre _ (by rw [hp]; rfl)
  · intro c hc
    rw [List.getLast?_append_of_ne_nil pre.data (natRepr_ne_nil n)] at hc
    obtain ⟨d, hd, rfl⟩ := natRepr_digits n c (mem_of_getLast?_eq _ c hc)
    exact isWsChar_digitChar d hd

/-! ### Re-serialization of a payload (feeding `normalizeWorkflow` its own
output, as `normalize(normalize(x))` does) -/

/-- The JS object a normalized step is, when passed back into
`normalizeWorkflow`.  Absent optional fields read as `undefined`, which is
indistinguishable from a missing key. -/
def stepToJson (st : WStep) : Json :=
  .obj ([("stepId", .str st.stepId), ("order", .num st.order), ("title", .str st.title)]
    ++ (match st.description with
        | some d => [("description", Json.str d)]
        | none => [])
    ++ (match st.durationSec with
        | some d => [("durationSec", Json.num d)]
        | none => [])
    ++ (match st.page with
        | some pg => [("page", Json.num pg)]
        | none => []))

/-- The JS object a normalized workflow record is. -/
def payloadToJson (wf : WorkflowPayload) : Json :=
  .obj [("workflowUUID", .str wf.workflowUUID),
        ("workflowId", .str wf.workflowId),
        ("name", .str wf.name),
        ("steps", .arr (wf.steps.map stepToJson)),
        ("createdAt", .str wf.createdAt),
        ("updatedAt", .str wf.updatedAt)]

/-! ### Fixed points of the numeric coercions on integer values -/

theorem round_int (k : ℤ) : JsNum.round (.fin (k : ℚ)) = .fin (k : ℚ) := by
  have h1 : JsNum.round (.fin (k : ℚ))
      = .fin ((((2 * ((k : ℚ)).num + (((k : ℚ).den : ℤ))) / (2 * ((k : ℚ).den : ℤ))) : ℤ) : ℚ) :=
    rfl
  rw [h1, Rat.num_intCast, Rat.den_intCast]
  have h : (2 * k + ((1 : ℕ) : ℤ)) / (2 * ((1 : ℕ) : ℤ)) = k := by
    push_cast
    omega
  rw [h]

theorem floor_int_fix (k : ℤ) : JsNum.floor (.fin (k : ℚ)) = .fin (k : ℚ) := by
  have h1 : JsNum.floor (.fin (k : ℚ))
      = .fin (((((k : ℚ)).num / ((k : ℚ).den : ℤ)) : ℤ) : ℚ) := rfl
  rw [h1, Rat.num_intCast, Rat.den_intCast]
  have h : k / ((1 : ℕ) : ℤ) = k := by
    push_cast
    omega
  rw [h]

theorem geOne_int (k : ℤ) (hk : 1 ≤ k) : JsNum.geOne (.fin (k : ℚ)) = true := by
  rw [geOne_fin]
  simpa using (by exact_mod_cast hk : (1 : ℚ) ≤ (k : ℚ))

/-! ### Shape of the fields `normStep` emits -/

theorem order_match_finite (v : Option Json) (idx : Nat) :
    (match v with
      | some (.num n) => if n.isFiniteB then n else JsNum.fin ((idx + 1 : ℕ) : ℚ)
      | _ => JsNum.fin ((idx + 1 : ℕ) : ℚ)).isFiniteB = true := by
  cases v with
  | none => rfl
  | some j =>
    cases j with
    | num n =>
      show (if n.isFiniteB = true then n else JsNum.fin ((idx + 1 : ℕ) : ℚ)).isFiniteB = true
      by_cases hn : n.isFiniteB = true
      · rwa [if_pos hn]
      · rw [if_neg hn]
        rfl
    | null => rfl
    | bool b => rfl
    | str s => rfl
    | arr xs => rfl
    | obj fs => rfl

theorem fallback_title_good (idx : Nat) :
    jsTrim ("Step " ++ natRepr (idx + 1)) = "Step " ++ natRepr (idx + 1) ∧
      "Step " ++ natRepr (idx + 1) ≠ "" := by
  constructor
  · refine jsTrim_step_title "Step " (idx + 1) (fun c hc => ?_) (by simp)
    obtain rfl : 'S' = c := by simpa using hc
    decide
  · intro h
    have hd := congrArg String.data h
    rw [show ("Step " ++ natRepr (idx + 1)).data = "Step ".data ++ (natRepr (idx + 1)).data
      from rfl] at hd
    simp at hd

theorem title_match_good (v : Option Json) (idx : Nat) :
    jsTrim (match v with
      | some (.str t) => if jsTrim t ≠ "" then jsTrim t else "Step " ++ natRepr (idx + 1)
      | _ => "Step " ++ natRepr (idx + 1)) =
      (match v with
        | some (.str t) => if jsTrim t ≠ "" then jsTrim t else "Step " ++ natRepr (idx + 1)
        | _ => "Step " ++ natRepr (idx + 1)) ∧
    (match v with
      | some (.str t) => if jsTrim t ≠ "" then jsTrim t else "Step " ++ natRepr (idx + 1)
      | _ => "Step " ++ natRepr (idx + 1)) ≠ "" := by
  have hfb := fallback_title_good idx
  cases v with
  | none => exact hfb
  | some j =>
    cases j with
    | str t =>
      have hM : (match (some (Json.str t) : Option Json) with
        | some (.str t) => if jsTrim t ≠ "" then jsTrim t else "Step " ++ natRepr (idx + 1)
        | _ => "Step " ++ natRepr (idx + 1))
          = if jsTrim t ≠ "" then jsTrim t else "Step " ++ natRepr (idx + 1) := rfl
      rw [hM]
      by_cases ht : jsTrim t ≠ ""
      · rw [if_pos ht]
        exact ⟨jsTrim_idem t, ht⟩
      · rw [if_neg ht]
        exact hfb
    | null => exact hfb
    | bool b => exact hfb
    | num n => exact hfb
    | arr xs => exact hfb
    | obj fs => exact hfb

theorem dur_match_shape (v : Option Json) (d : JsNum)
    (h : (match v with
      | some (.num n) => if n.isFiniteB && n.gtZero then some n.round else none
      | _ => none) = some d) : ∃ k : ℤ, d = .fin (k : ℚ) := by
  cases v with
  | none => exact Option.noConfusion h
  | some j =>
    cases j with
    | num n =>
      have h' : (if n.isFiniteB && n.gtZero then some n.round else none) = some d := h
      by_cases hn : (n.isFiniteB && n.gtZero) = true
      · rw [if_pos hn] at h'
        obtain rfl := Option.some_inj.mp h'
        cases n with
        | fin q => exact ⟨(2 * q.num + (q.den : ℤ)) / (2 * (q.den : ℤ)), rfl⟩
        | nan => simp [JsNum.isFiniteB] at hn
        | inf => simp [JsNum.isFiniteB] at hn
        | ninf => simp [JsNum.isFiniteB] at hn
      · rw [if_neg hn] at h'
        exact Option.noConfusion h'
    | null => exact Option.noConfusion h
    | bool b => exact Option.noConfusion h
    | str s => exact Option.noConfusion h
    | arr xs => exact Option.noConfusion h
    | obj fs => exact Option.noConfusion h

theorem page_match_shape (v : Option Json) (d : JsNum)
    (h : (match v with
      | some (.num n) => if n.isFiniteB && n.geOne then some n.floor else none
      | _ => none) = some d) : ∃ k : ℤ, d = .fin (k : ℚ) ∧ 1 ≤ k := by
  cases v with
  | none => exact Option.noConfusion h
  | some j =>
    cases j with
    | num n =>
      have h' : (if n.isFiniteB && n.geOne then some n.floor else none) = some d := h
      by_cases hn : (n.isFiniteB && n.geOne) = true
      · rw [if_pos hn] at h'
        obtain rfl := Option.some_inj.mp h'
        cases n with
        | fin q =>
          have hq : (1 : ℚ) ≤ q := by
            rw [Bool.and_eq_true] at hn
            have hg := hn.2
            rw [geOne_fin] at hg
            exact of_decide_eq_true hg
          refine ⟨⌊q⌋, ?_, Int.le_floor.mpr (by exact_mod_cast hq)⟩
          rw [jsFloor_eq_floor]
        | nan => simp [JsNum.isFiniteB] at hn
        | inf => simp [JsNum.isFiniteB] at hn
        | ninf => simp [JsNum.isFiniteB] at hn
      · rw [if_neg hn] at h'
        exact Option.noConfusion h'
    | null => exact Option.noConfusion h
    | bool b => exact Option.noConfusion h
    | str s => exact Option.noConfusion h
    | arr xs => exact Option.noConfusion h
    | obj fs => exact Option.noConfusion h

/-- The `stepId` field produced by `normStep`. -/
theorem normStep_stepId (idx : Nat) (s : Json) (st : WStep)
    (h : normStep idx s = some st) :
    ∃ sid, st.stepId = safeId sid := by
  cases s
  case null => simp [normStep] at h
  all_goals
    simp only [normStep, Option.bind_eq_bind, Option.bind_eq_some] at h
    obtain ⟨sid, hsid, h2⟩ := h
    obtain rfl := Option.some_inj.mp h2
    exact ⟨sid, rfl⟩

/-- The `title` field produced by `normStep`. -/
theorem normStep_title (idx : Nat) (s : Json) (st : WStep)
    (h : normStep idx s = some st) :
    st.title = (match s.getF "title" with
      | some (.str t) => if jsTrim t ≠ "" then jsTrim t else "Step " ++ natRepr (idx + 1)
      | _ => "Step " ++ natRepr (idx + 1)) := by
  cases s
  case null => simp [normStep] at h
  all_goals
    simp only [normStep, Option.bind_eq_bind, Option.bind_eq_some] at h
    obtain ⟨sid, hsid, h2⟩ := h
    obtain rfl := Option.some_inj.mp h2
    rfl

/-- Everything the second normalization pass needs to know about a step the
first pass produced. -/
theorem normStep_inv (idx : Nat) (s : Json) (st : WStep)
    (h : normStep idx s = some st) :
    (∃ sid, st.stepId = safeId sid) ∧
    st.order.isFiniteB = true ∧
    (jsTrim st.title = st.title ∧ st.title ≠ "") ∧
    (∀ d, st.durationSec = some d → ∃ k : ℤ, d = .fin (k : ℚ)) ∧
    (∀ v, st.page = some v → ∃ k : ℤ, v = .fin (k : ℚ) ∧ 1 ≤ k) := by
  have ho := normStep_order idx s st h
  have ht := normStep_title idx s st h
  have hd := normStep_durationSec idx s st h
  have hp := normStep_page idx s st h
  refine ⟨normStep_stepId idx s st h, ?_, ?_, ?_, ?_⟩
  · rw [ho]
    exact order_match_finite _ _
  · rw [ht]
    exact title_match_good _ _
  · intro d hdd
    rw [hd] at hdd
    exact dur_match_shape _ d hdd
  · intro v hv
    rw [hp] at hv
    exact page_match_shape _ v hv

/-! ### The second pass reads back exactly what the first pass wrote -/

theorem jsOrString_str (x : String) (hx : x ≠ "") (fb : String) :
    jsOrString (some (.str x)) fb = some x := by
  have h1 : jsOrString (some (.str x)) fb
      = if Json.truthy (.str x) = true then some x else some fb := rfl
  have hb : Json.truthy (.str x) = true := by
    show (x != "") = true
    simpa using hx
  rw [h1, if_pos hb]

theorem stepToJson_getF_stepId (st : WStep) :
    (stepToJson st).getF "stepId" = some (.str st.stepId) := rfl

theorem stepToJson_getF_order (st : WStep) :
    (stepToJson st).getF "order" = some (.num st.order) := rfl

theorem stepToJson_getF_title (st : WStep) :
    (stepToJson st).getF "title" = some (.str st.title) := rfl

theorem stepToJson_getF_description (st : WStep) :
    (stepToJson st).getF "description" = st.description.map Json.str := by
  obtain ⟨sid, ord, ttl, dsc, dur, pg⟩ := st
  cases dsc <;> cases dur <;> cases pg <;> rfl

theorem stepToJson_getF_durationSec (st : WStep) :
    (stepToJson st).getF "durationSec" = st.durationSec.map Json.num := by
  obtain ⟨sid, ord, ttl, dsc, dur, pg⟩ := st
  cases dsc <;> cases dur <;> cases pg <;> rfl

theorem stepToJson_getF_page (st : WStep) :
    (stepToJson st).getF "page" = st.page.map Json.num := by
  obtain ⟨sid, ord, ttl, dsc, dur, pg⟩ := st
  cases dsc <;> cases dur <;> cases pg <;> rfl

theorem normStep_stepToJson (i : Nat) (st : WStep)
    (hsid : st.stepId ≠ "") (hsfix : safeId st.stepId = st.stepId)
    (hord : st.order.isFiniteB = true)
    (htfix : jsTrim st.title = st.title) (htne : st.title ≠ "")
    (hdur : ∀ d, st.durationSec = some d →
      d.isFiniteB = true ∧ d.gtZero = true ∧ d.round = d)
    (hpage : ∀ v, st.page = some v →
      v.isFiniteB = true ∧ v.geOne = true ∧ v.floor = v) :
    normStep i (stepToJson st) = some st := by
  have h0 : normStep i (stepToJson st) =
      (jsOrString ((stepToJson st).getF "stepId") ("step-" ++ natRepr (i + 1))).bind
        (fun sid => some {
          stepId := safeId sid
          order := match (stepToJson st).getF "order" with
            | some (.num n) => if n.isFiniteB then n else .fin ((i + 1 : ℕ) : ℚ)
            | _ => .fin ((i + 1 : ℕ) : ℚ)
          title := match (stepToJson st).getF "title" with
            | some (.str t) => if jsTrim t ≠ "" then jsTrim t else "Step " ++ natRepr (i + 1)
            | _ => "Step " ++ natRepr (i + 1)
          description := match (stepToJson st).getF "description" with
            | some (.str d) => some d
            | _ => none
          durationSec := match (stepToJson st).getF "durationSec" with
            | some (.num n) => if n.isFiniteB && n.gtZero then some n.round else none
            | _ => none
          page := match (stepToJson st).getF "page" with
            | some (.num n) => if n.isFiniteB && n.geOne then some n.floor else none
            | _ => none }) := rfl
  have f2 : (match (some (.num st.order) : Option Json) with
      | some (.num n) => if n.isFiniteB then n else JsNum.fin ((i + 1 : ℕ) : ℚ)
      | _ => JsNum.fin ((i + 1 : ℕ) : ℚ)) = st.order := by
    show (if st.order.isFiniteB = true then st.order else JsNum.fin ((i + 1 : ℕ) : ℚ))
      = st.order
    rw [if_pos hord]
  have f3 : (match (some (.str st.title) : Option Json) with
      | some (.str t) => if jsTrim t ≠ "" then jsTrim t else "Step " ++ natRepr (i + 1)
      | _ => "Step " ++ natRepr (i + 1)) = st.title := by
    show (if jsTrim st.title ≠ "" then jsTrim st.title else "Step " ++ natRepr (i + 1))
      = st.title
    rw [if_pos (by rw [htfix]; exact htne), htfix]
  have f4 : (match st.description.map Json.str with
      | some (.str d) => some d
      | _ => none) = st.description := by
    cases st.description <;> rfl
  have f5 : (match st.durationSec.map Json.num with
      | some (.num n) => if n.isFiniteB && n.gtZero then some n.round else none
      | _ => none) = st.durationSec := by
    cases hdu : st.durationSec with
    | none => rfl
    | some d =>
      obtain ⟨h1, h2, h3⟩ := hdur d hdu
      show (if d.isFiniteB && d.gtZero then some d.round else none) = some d
      rw [h1, h2, h3]
      rfl
  have f6 : (match st.page.map Json.num with
      | some (.num n) => if n.isFiniteB && n.geOne then some n.floor else none
      | _ => none) = st.page := by
    cases hpg : st.page with
    | none => rfl
    | some v =>
      obtain ⟨h1, h2, h3⟩ := hpage v hpg
      show (if v.isFiniteB && v.geOne then some v.floor else none) = some v
      rw [h1, h2, h3]
      rfl
  rw [h0, stepToJson_getF_stepId, stepToJson_getF_order, stepToJson_getF_title,
    stepToJson_getF_description, stepToJson_getF_durationSec, stepToJson_getF_page,
    jsOrString_str st.stepId hsid, Option.some_bind, hsfix, f2, f3, f4, f5, f6]

theorem mapIdxOptFrom_map_self {α β : Type} (f : Nat → β → Option α) (g : α → β)
    (l : List α) (hall : ∀ a ∈ l, ∀ i, f i (g a) = some a) :
    ∀ i, mapIdxOptFrom f i (l.map g) = some l := by
  induction l with
  | nil => intro i; rfl
  | cons a t ih =>
    intro i
    have ha := hall a (by simp) i
    have ht := ih (fun b hb j => hall b (by simp [hb]) j) (i + 1)
    simp only [List.map_cons, mapIdxOptFrom, Option.bind_eq_bind, ha, Option.some_bind, ht]

theorem mapIdxOptFrom_mem {α β : Type} (f : Nat → α → Option β) :
    ∀ (i : Nat) (l : List α) (bs : List β), mapIdxOptFrom f i l = some bs →
      ∀ b ∈ bs, ∃ j a, f j a = some b := by
  intro i l
  induction l generalizing i with
  | nil =>
    intro bs h b hb
    simp only [mapIdxOptFrom] at h
    obtain rfl := Option.some_inj.mp h
    simp at hb
  | cons a t ih =>
    intro bs h b hb
    simp only [mapIdxOptFrom, Option.bind_eq_bind, Option.bind_eq_some] at h
    obtain ⟨b0, hb0, bs', hbs', hcons⟩ := h
    obtain rfl := Option.some_inj.mp hcons
    rcases List.mem_cons.mp hb with rfl | hbt
    · exact ⟨i, a, hb0⟩
    · exact ih (i + 1) bs' hbs' b hbt

/-! ### C6 -/

/-- C6 (amended): `normalizeWorkflow` is idempotent modulo `updatedAt` on
every validated input whose first-pass output has nonempty `workflowUUID`,
`workflowId` and `stepId`s and only positive `durationSec` values.  (The
unamended claim fails when a supplied identifier sanitizes to the empty
string — the second pass then mints a fresh UUID — or when a `durationSec`
in `(0, 1/2)` rounds to 0, which the second pass drops; see the
counterexample.) -/
theorem c6_idempotent (u1 n1 u2 n2 : String) (body : Json) (wf : WorkflowPayload)
    (_hv : validateIncoming body = .ok ())
    (hn : normalizeWorkflow u1 n1 body = some wf)
    (huuid : wf.workflowUUID ≠ "")
    (hwid : wf.workflowId ≠ "")
    (hsid : ∀ st ∈ wf.steps, st.stepId ≠ "")
    (hdurpos : ∀ st ∈ wf.steps, ∀ d, st.durationSec = some d → d.gtZero = true) :
    normalizeWorkflow u2 n2 (payloadToJson wf) = some { wf with updatedAt := n2 } := by
  obtain ⟨uuidRaw, idRaw, nameStr, l, steps, h1, h2, h3, h4, h5, hwf⟩ :=
    normalizeWorkflow_eq u1 n1 body wf hn
  have hUUID : wf.workflowUUID = safeId uuidRaw := by rw [hwf]
  have hWID : wf.workflowId = safeId idRaw := by rw [hwf]
  have hNAME : wf.name = jsTrim nameStr := by rw [hwf]
  have hSTEPS : wf.steps = steps := by rw [hwf]
  have hfix1 : safeId wf.workflowUUID = wf.workflowUUID := by
    rw [hUUID]; exact safeId_idem uuidRaw
  have hfix2 : safeId wf.workflowId = wf.workflowId := by
    rw [hWID]; exact safeId_idem idRaw
  have hfix3 : jsTrim wf.name = wf.name := by
    rw [hNAME]; exact jsTrim_idem nameStr
  -- every step of `wf` is a fixed point of `normStep` at any index
  have hstepgood : ∀ st ∈ wf.steps, ∀ i, normStep i (stepToJson st) = some st := by
    intro st hst i
    obtain ⟨j, s, hjs⟩ : ∃ j s, normStep j s = some st := by
      apply mapIdxOptFrom_mem normStep 0 l steps h5
      rwa [← hSTEPS]
    obtain ⟨⟨sid, hsid'⟩, hordf, ⟨htfix, htne⟩, hdursh, hpagesh⟩ :=
      normStep_inv j s st hjs
    refine normStep_stepToJson i st (hsid st hst) ?_ hordf htfix htne ?_ ?_
    · rw [hsid']; exact safeId_idem sid
    · intro d hd
      obtain ⟨k, rfl⟩ := hdursh d hd
      exact ⟨rfl, hdurpos st hst _ hd, round_int k⟩
    · intro v hv
      obtain ⟨k, rfl, hk⟩ := hpagesh v hv
      exact ⟨rfl, geOne_int k hk, floor_int_fix k⟩
  have e1 : jsOrString ((payloadToJson wf).getF "workflowUUID") u2 = some wf.workflowUUID :=
    jsOrString_str wf.workflowUUID huuid u2
  have e2 : jsOrString ((payloadToJson wf).getF "workflowId") (safeId wf.workflowUUID)
      = some wf.workflowId :=
    jsOrString_str wf.workflowId hwid _
  have e3 : getStr? ((payloadToJson wf).getF "name") = some wf.name := rfl
  have e4 : getArr? ((payloadToJson wf).getF "steps") = some (wf.steps.map stepToJson) := rfl
  have e5 : mapIdxOpt normStep (wf.steps.map stepToJson) = some wf.steps :=
    mapIdxOptFrom_map_self normStep stepToJson wf.steps hstepgood 0
  have e6 : (getStr? ((payloadToJson wf).getF "createdAt")).getD n2 = wf.createdAt := rfl
  unfold normalizeWorkflow
  rw [show (payloadToJson wf).getF "workflowUUID" = some (.str wf.workflowUUID) from rfl,
    show (payloadToJson wf).getF "workflowId" = some (.str wf.workflowId) from rfl]
  simp only [Option.bind_eq_bind, jsOrString_str wf.workflowUUID huuid,
    jsOrString_str wf.workflowId hwid, e3, e4, e5, Option.some_bind]
  rw [hfix1, hfix2, hfix3, e6]

/-- Concrete input for the C6 counterexample: a validated body whose
`workflowUUID` sanitizes to the empty string and whose step carries
`durationSec = 3/10`. -/
def c6Body : Json :=
  .obj [("name", .str "W"), ("workflowUUID", .str "!!!"),
        ("steps", .arr [.obj [("title", .str "T"),
                              ("durationSec", .num (.fin (mkRat 3 10)))]])]

/-- The first-pass output on `c6Body`. -/
def c6Wf : WorkflowPayload :=
  { workflowUUID := ""
    workflowId := ""
    name := "W"
    steps := [
      { stepId := "step-1", order := .fin ((0 + 1 : ℕ) : ℚ), title := "T",
        description := none, durationSec := some (.fin ((0 : ℤ) : ℚ)), page := none }]
    createdAt := "t1"
    updatedAt := "t1" }

/-- The second-pass output on `payloadToJson c6Wf` (fresh UUID
`"22222222-2222-4222-8222-222222222222"`, time `"t2"`). -/
def c6Wf2 : WorkflowPayload :=
  { workflowUUID := "22222222-2222-4222-8222-222222222222"
    workflowId := "22222222-2222-4222-8222-222222222222"
    name := "W"
    steps := [
      { stepId := "step-1", order := .fin ((0 + 1 : ℕ) : ℚ), title := "T",
        description := none, durationSec := none, page := none }]
    createdAt := "t1"
    updatedAt := "t2" }

/-- C6 is false as stated: on this validated input the second normalization
pass does not reproduce the first (even ignoring `updatedAt`): the sanitized-
to-empty `workflowUUID` is replaced by a fresh UUID, and the `durationSec`
that rounded to 0 is dropped. -/
theorem c6_counterexample :
    validateIncoming c6Body = .ok () ∧
    normalizeWorkflow "11111111-1111-4111-8111-111111111111" "t1" c6Body = some c6Wf ∧
    normalizeWorkflow "22222222-2222-4222-8222-222222222222" "t2" (payloadToJson c6Wf)
      = some c6Wf2 ∧
    c6Wf2.workflowUUID ≠ c6Wf.workflowUUID ∧
    c6Wf2.steps.map WStep.durationSec ≠ c6Wf.steps.map WStep.durationSec := by
  refine ⟨rfl, rfl, rfl, by decide, ?_⟩
  intro h
  have h0 : (none : Option JsNum) = some (.fin ((0 : ℤ) : ℚ)) := by
    simpa [c6Wf, c6Wf2] using h
  exact Option.noConfusion h0

/-- Concrete input for the C6 witness. -/
def c6wBody : Json :=
  .obj [("name", .str "W"),
        ("steps", .arr [.obj [("title", .str "A"),
                              ("durationSec", .num (.fin (mkRat 5 1)))]])]

/-- The single step of the first-pass output on `c6wBody`. -/
def c6wStep : WStep :=
  { stepId := "step-1", order := .fin ((0 + 1 : ℕ) : ℚ), title := "A",
    description := none, durationSec := some ((JsNum.fin (mkRat 5 1)).round), page := none }

/-- The first-pass output on `c6wBody`. -/
def c6wWf : WorkflowPayload :=
  { workflowUUID := "u1-id"
    workflowId := "u1-id"
    name := "W"
    steps := [c6wStep]
    createdAt := "t1"
    updatedAt := "t1" }

/-- Witness for `c6_idempotent` at a concrete input. -/
theorem c6_idempotent_witness :
    normalizeWorkflow "u2-id" "t2" (payloadToJson c6wWf)
      = some { c6wWf with updatedAt := "t2" } := by
  have hmem : ∀ st ∈ c6wWf.steps, st = c6wStep := by
    intro st hst
    simpa [c6wWf] using hst
  have hsid : ∀ st ∈ c6wWf.steps, st.stepId ≠ "" := by
    intro st hst
    rw [hmem st hst]
    decide
  have hdur : ∀ st ∈ c6wWf.steps, ∀ d, st.durationSec = some d → d.gtZero = true := by
    intro st hst d hd
    rw [hmem st hst] at hd
    have hdv : d = (JsNum.fin (mkRat 5 1)).round := by
      simpa [c6wStep] using hd.symm
    rw [hdv]
    decide
  exact c6_idempotent "u1-id" "t1" "u2-id" "t2" c6wBody c6wWf rfl rfl
    (by decide) (by decide) hsid hdur

/-! ### ARRunner (src/src/components/ARRunner.tsx)

The runtime state that matters to the claims is `currentStep`, `timeLeft`
and `timerActive` (the `arMode` flag only affects styling).  Durations are
modelled as integers: the runtime consumes normalized steps, whose
`durationSec` values are integral. -/

/-- The slice of a `WorkflowStep` the runner's navigation and timer read. -/
structure RStep where
  durationSec : Option ℤ
deriving DecidableEq

/-- The `useState` triple of `ARRunner`. -/
structure RunnerState where
  currentStep : Nat
  timeLeft : ℤ
  timerActive : Bool
deriving DecidableEq

/-- The step-entry effect (ARRunner.tsx lines 21–30):
`const duration = step?.durationSec ?? 0; if (duration > 0) …`. -/
def enterStep (steps : List RStep) (i : Nat) (s : RunnerState) : RunnerState :=
  let duration := ((steps.get? i).bind RStep.durationSec).getD 0
  if 0 < duration then { s with timeLeft := duration, timerActive := true }
  else { s with timeLeft := 0, timerActive := false }

/-- One interval tick (ARRunner.tsx lines 32–44).  The interval exists only
while `timerActive && timeLeft > 0`; otherwise no tick fires and the state
is unchanged. -/
def tick (s : RunnerState) : RunnerState :=
  if s.timerActive && decide (0 < s.timeLeft) then
    if s.timeLeft ≤ 1 then { s with timeLeft := 0, timerActive := false }
    else { s with timeLeft := s.timeLeft - 1 }
  else s

/-- `n` consecutive ticks. -/
def tickN : Nat → RunnerState → RunnerState
  | 0, s => s
  | n + 1, s => tickN n (tick s)

/-- `next` (ARRunner.tsx lines 46–48): `if (currentStep < steps.length - 1)`. -/
def next (N : Nat) (i : Nat) : Nat := if i < N - 1 then i + 1 else i

/-- `prev` (ARRunner.tsx lines 50–52): `if (currentStep > 0)`. -/
def prev (i : Nat) : Nat := if 0 < i then i - 1 else i

inductive NavOp where
  | next
  | prev
deriving DecidableEq

/-- A finite sequence of Next/Prev presses, starting from index `i`. -/
def runNav (N : Nat) : Nat → List NavOp → Nat
  | i, [] => i
  | i, .next :: ops => runNav N (next N i) ops
  | i, .prev :: ops => runNav N (prev i) ops

/-! ### C7 -/

/-- C7 (confirmed): with `N ≥ 1` loaded steps, the step index starts at 0
and stays in `[0, N-1]` under every finite sequence of Next/Prev: Next from
`i < N-1` moves to `i+1` and is a no-op at the last step; Prev from `i > 0`
moves to `i-1` and is a no-op at the first step. -/
theorem c7_nav_bounds (N : Nat) (hN : 0 < N) :
    (∀ (ops : List NavOp) (i : Nat), i < N → runNav N i ops < N) ∧
    (∀ ops : List NavOp, runNav N 0 ops < N) ∧
    (∀ i, i < N - 1 → next N i = i + 1) ∧
    (next N (N - 1) = N - 1) ∧
    (∀ i, 0 < i → prev i = i - 1) ∧
    (prev 0 = 0) := by
  have hstep : ∀ (ops : List NavOp) (i : Nat), i < N → runNav N i ops < N := by
    intro ops
    induction ops with
    | nil => intro i hi; exact hi
    | cons op t ih =>
      intro i hi
      cases op with
      | next =>
        apply ih
        unfold next
        split
        · omega
        · exact hi
      | prev =>
        apply ih
        unfold prev
        split
        · omega
        · exact hi
  refine ⟨hstep, fun ops => hstep ops 0 hN, fun i hi => ?_, ?_, fun i hi => ?_, rfl⟩
  · unfold next
    rw [if_pos hi]
  · unfold next
    rw [if_neg (by omega)]
  · unfold prev
    rw [if_pos hi]

/-- Witness for `c7_nav_bounds` at `N = 3`. -/
theorem c7_nav_bounds_witness :
    runNav 3 0 [.next, .next, .next, .prev] < 3 ∧ next 3 2 = 2 ∧ prev 0 = 0 := by
  obtain ⟨h1, -, -, h4, -, h6⟩ := c7_nav_bounds 3 (by decide)
  exact ⟨h1 [.next, .next, .next, .prev] 0 (by decide), h4, h6⟩

/-! ### C8 -/

/-- C8 (confirmed): entering a step with `durationSec = N > 0` arms the
timer at `N`; a tick decrements while more than one second remains; the
tick that fires at 1 moves to the expired state (`timeLeft = 0`,
`timerActive = false`) and no further tick fires, so after exactly `N`
ticks the timer is expired; no tick fires (and the state never changes)
when the timer is not armed — in particular after entering a step without
a positive `durationSec` — and `timeLeft` never becomes negative. -/
theorem c8_timer (steps : List RStep) (i : Nat) (s0 : RunnerState) (N : ℤ)
    (hN : 0 < N) (hdur : (steps.get? i).bind RStep.durationSec = some N) :
    (enterStep steps i s0 = { s0 with timeLeft := N, timerActive := true }) ∧
    (∀ s : RunnerState, s.timerActive = true → 1 < s.timeLeft →
      tick s = { s with timeLeft := s.timeLeft - 1 }) ∧
    (∀ s : RunnerState, s.timerActive = true → s.timeLeft = 1 →
      tick s = { s with timeLeft := 0, timerActive := false }) ∧
    (tickN N.toNat (enterStep steps i s0)
      = { s0 with timeLeft := 0, timerActive := false }) ∧
    (∀ s : RunnerState, s.timerActive = false → tick s = s) ∧
    (∀ (steps' : List RStep) (j : Nat) (s' : RunnerState),
      ((steps'.get? j).bind RStep.durationSec).getD 0 ≤ 0 →
      tick (enterStep steps' j s') = enterStep steps' j s') ∧
    (∀ s : RunnerState, 0 ≤ s.timeLeft → 0 ≤ (tick s).timeLeft) := by
  have henter : enterStep steps i s0 = { s0 with timeLeft := N, timerActive := true } := by
    unfold enterStep
    rw [hdur]
    simp [hN]
  have hdec : ∀ s : RunnerState, s.timerActive = true → 1 < s.timeLeft →
      tick s = { s with timeLeft := s.timeLeft - 1 } := by
    intro s ha ht
    unfold tick
    rw [if_pos (by simp [ha]; omega), if_neg (by omega)]
  have hexp : ∀ s : RunnerState, s.timerActive = true → s.timeLeft = 1 →
      tick s = { s with timeLeft := 0, timerActive := false } := by
    intro s ha ht
    unfold tick
    rw [if_pos (by simp [ha]; omega), if_pos (by omega)]
  have hidle : ∀ s : RunnerState, s.timerActive = false → tick s = s := by
    intro s ha
    unfold tick
    rw [if_neg (by simp [ha])]
  have hrun : ∀ (n : Nat) (base : RunnerState), 0 < n →
      tickN n { base with timeLeft := (n : ℤ), timerActive := true }
        = { base with timeLeft := 0, timerActive := false } := by
    intro n
    induction n with
    | zero => intro base h; omega
    | succ m ih =>
      intro base _
      by_cases hm : 0 < m
      · have h1 : tick { base with timeLeft := ((m + 1 : Nat) : ℤ), timerActive := true }
            = { base with timeLeft := ((m : Nat) : ℤ), timerActive := true } := by
          rw [hdec _ rfl (by push_cast; omega)]
          have hz : ((m + 1 : Nat) : ℤ) - 1 = ((m : Nat) : ℤ) := by push_cast; omega
          simp [hz]
        show tickN m (tick { base with timeLeft := ((m + 1 : Nat) : ℤ), timerActive := true })
          = _
        rw [h1]
        exact ih base hm
      · obtain rfl : m = 0 := by omega
        show tickN 0 (tick { base with timeLeft := ((1 : Nat) : ℤ), timerActive := true }) = _
        rw [hexp _ rfl (by push_cast)]
        rfl
  refine ⟨henter, hdec, hexp, ?_, hidle, ?_, ?_⟩
  · rw [henter]
    have hNt : ((N.toNat : Nat) : ℤ) = N := Int.toNat_of_nonneg (by omega)
    have := hrun N.toNat s0 (by omega)
    rw [hNt] at this
    exact this
  · intro steps' j s' hle
    have he : enterStep steps' j s'
        = { s' with timeLeft := 0, timerActive := false } := by
      unfold enterStep
      rw [if_neg (by omega)]
    rw [he, hidle _ rfl]
  · intro s hs
    unfold tick
    split
    · split
      · simpa
      · simp
        omega
    · simpa

/-- Witness for `c8_timer` at a two-second step. -/
theorem c8_timer_witness :
    enterStep [⟨some 2⟩] 0 ⟨0, 0, false⟩ = ⟨0, 2, true⟩ ∧
    tickN 2 (enterStep [⟨some 2⟩] 0 ⟨0, 0, false⟩) = ⟨0, 0, false⟩ := by
  obtain ⟨h1, -, -, h4, -⟩ := c8_timer [⟨some 2⟩] 0 ⟨0, 0, false⟩ 2 (by decide) rfl
  exact ⟨h1, by simpa using h4⟩

/-! ### listWorkflows (server/index.ts lines 126–147) -/

/-- The metadata-only summary `listWorkflows` returns per record: no step
payload. -/
structure WfSummary where
  workflowUUID : String
  workflowId : String
  name : String
  createdAt : String
  updatedAt : String
deriving DecidableEq

def summaryOf (wf : WorkflowPayload) : WfSummary :=
  { workflowUUID := wf.workflowUUID
    workflowId := wf.workflowId
    name := wf.name
    createdAt := wf.createdAt
    updatedAt := wf.updatedAt }

/-- The JS comparator `(a, b) => (a.updatedAt < b.updatedAt ? 1 : -1)`
puts `a` before `b` exactly when it returns a nonpositive value, i.e. when
`b.updatedAt ≤ a.updatedAt` (JS string comparison is lexicographic, as is
Lean's `String` order).  JS `Array.prototype.sort` is stable, and a stable
sort under a total preorder has a unique result, computed here by
`List.insertionSort`. -/
def summariesLe (a b : WfSummary) : Prop := b.updatedAt ≤ a.updatedAt

instance : DecidableRel summariesLe := fun a b => by
  unfold summariesLe
  infer_instance

instance : IsTotal WfSummary summariesLe :=
  ⟨fun a b => le_total b.updatedAt a.updatedAt⟩

instance : IsTrans WfSummary summariesLe :=
  ⟨fun _ _ _ h1 h2 => le_trans h2 h1⟩

/-- `listWorkflows` from server/index.ts, as a function of the parsed
records in the store. -/
def listWorkflows (records : List WorkflowPayload) : List WfSummary :=
  (records.map summaryOf).insertionSort summariesLe

/-! ### C9 -/

/-- C9 (confirmed): `listWorkflows` returns exactly one summary per stored
record — carrying only the identifiers, name and timestamps, never the step
payload (the summary type has no step field) — and the result is sorted by
`updatedAt` descending. -/
theorem c9_list_sorted (records : List WorkflowPayload) :
    (listWorkflows records).Perm (records.map summaryOf) ∧
    List.Sorted summariesLe (listWorkflows records) ∧
    (∀ item ∈ listWorkflows records, ∃ wf ∈ records, item = summaryOf wf) := by
  refine ⟨List.perm_insertionSort summariesLe _,
    List.sorted_insertionSort summariesLe _, fun item hitem => ?_⟩
  have hmem : item ∈ records.map summaryOf :=
    (List.perm_insertionSort summariesLe (records.map summaryOf)).mem_iff.mp hitem
  obtain ⟨wf, hwf, rfl⟩ := List.mem_map.mp hmem
  exact ⟨wf, hwf, rfl⟩

/-! ### JSON text model (for `extractJsonFromText` and `readWorkflow`)

`extractJsonFromText` manipulates raw strings and calls `JSON.parse`, so
this part of the embedding models JSON text: values (`JVal`),
serialization (`sv`, the spacing-free `JSON.stringify`), and a parser
(`parseJson`, modelling `JSON.parse`).  Model restrictions, marked below:
numbers are integers (no fraction/exponent forms), and `\uXXXX` string
escapes are not modelled; neither form occurs in this system's data. -/

/-- A JSON value as text-level data.  Strings are char lists; numbers are
restricted to integers (model restriction). -/
inductive JVal where
  | null
  | bool (b : Bool)
  | num (i : ℤ)
  | str (s : List Char)
  | arr (xs : List JVal)
  | obj (kvs : List (List Char × JVal))

/-- Decimal digit list of a natural number (nonempty, `"0"` for zero). -/
def natReprL (n : Nat) : List Char := if n = 0 then ['0'] else natDigs n

/-- Digits of an integer with an optional leading minus. -/
def intRepr (i : ℤ) : List Char :=
  if i < 0 then '-' :: natReprL (-i).toNat else natReprL i.toNat

/-- `JSON.stringify` escaping for one character (quotes and backslashes;
control characters would need `\uXXXX`, outside the model). -/
def escChar (c : Char) : List Char :=
  if c = '"' ∨ c = '\\' then ['\\', c] else [c]

def escStr (s : List Char) : List Char := (s.map escChar).flatten

def strLit (s : List Char) : List Char := '"' :: escStr s ++ ['"']

mutual
/-- `JSON.stringify` without spacing. -/
def sv : JVal → List Char
  | .null => ['n', 'u', 'l', 'l']
  | .bool b => if b then ['t', 'r', 'u', 'e'] else ['f', 'a', 'l', 's', 'e']
  | .num i => intRepr i
  | .str s => strLit s
  | .arr xs => '[' :: svElems xs ++ [']']
  | .obj kvs => '{' :: svKVs kvs ++ ['}']
/-- Comma-joined element serializations. -/
def svElems : List JVal → List Char
  | [] => []
  | [x] => sv x
  | x :: y :: xs => sv x ++ ',' :: svElems (y :: xs)
/-- Comma-joined `"key":value` member serializations. -/
def svKVs : List (List Char × JVal) → List Char
  | [] => []
  | [(k, v)] => strLit k ++ ':' :: sv v
  | (k, v) :: kv :: kvs => strLit k ++ ':' :: sv v ++ ',' :: svKVs (kv :: kvs)
end

mutual
/-- Nesting measure for the fueled parser. -/
def mval : JVal → Nat
  | .arr xs => 1 + mlist xs
  | .obj kvs => 1 + mkvs kvs
  | _ => 1
def mlist : List JVal → Nat
  | [] => 1
  | x :: xs => 1 + max (mval x) (mlist xs)
def mkvs : List (List Char × JVal) → Nat
  | [] => 1
  | (_, v) :: kvs => 1 + max (mval v) (mkvs kvs)
end

/-- A value is inside the model when its serialization has no control
characters: `JSON.stringify` would have to `\uXXXX`-escape those, which
is outside the escaping model. -/
def svOk (o : JVal) : Bool := (sv o).all (fun c => 32 ≤ c.toNat)

/-! #### The parser (JSON.parse) -/

/-- JSON inter-token whitespace. -/
def jsonWs (c : Char) : Bool := c == ' ' || c == '\t' || c == '\n' || c == '\r'

def skipWs (l : List Char) : List Char := l.dropWhile jsonWs

def digVal (c : Char) : Nat := c.toNat - 48

def digsToNat (ds : List Char) : Nat := ds.foldl (fun a c => 10 * a + digVal c) 0

/-- Parse a digit run (JSON integer part; leading zeros and
fraction/exponent forms are rejected — the latter is the model
restriction to integers). -/
def pDigs (l : List Char) : Option (ℕ × List Char) :=
  if (l.takeWhile Char.isDigit).isEmpty then none
  else if 1 < (l.takeWhile Char.isDigit).length ∧
      (l.takeWhile Char.isDigit).head? = some '0' then none
  else if (l.dropWhile Char.isDigit).head? = some '.' ∨
      (l.dropWhile Char.isDigit).head? = some 'e' ∨
      (l.dropWhile Char.isDigit).head? = some 'E' then none
  else some (digsToNat (l.takeWhile Char.isDigit), l.dropWhile Char.isDigit)

def pNum (l : List Char) : Option (JVal × List Char) :=
  match l with
  | '-' :: r => (pDigs r).map (fun p => (.num (-(p.1 : ℤ)), p.2))
  | _ => (pDigs l).map (fun p => (.num ((p.1 : ℤ)), p.2))

/-- Parse a string body after the opening quote.  Escapes: `\"`, `\\`,
`\/`, `\n`, `\t`, `\r`, `\b`, `\f` (`\uXXXX` is outside the model);
unescaped control characters are rejected, as in JSON. -/
def pStr : List Char → Option (List Char × List Char)
  | [] => none
  | '"' :: r => some ([], r)
  | '\\' :: c :: r =>
    if c = '"' ∨ c = '\\' ∨ c = '/' then (pStr r).map (fun p => (c :: p.1, p.2))
    else if c = 'n' then (pStr r).map (fun p => ('\n' :: p.1, p.2))
    else if c = 't' then (pStr r).map (fun p => ('\t' :: p.1, p.2))
    else if c = 'r' then (pStr r).map (fun p => ('\r' :: p.1, p.2))
    else if c = 'b' then (pStr r).map (fun p => ('\x08' :: p.1, p.2))
    else if c = 'f' then (pStr r).map (fun p => ('\x0c' :: p.1, p.2))
    else none
  | c :: r =>
    if c.toNat < 32 then none
    else (pStr r).map (fun p => (c :: p.1, p.2))

mutual
/-- Fueled JSON value parser. -/
def pVal : Nat → List Char → Option (JVal × List Char)
  | 0, _ => none
  | fuel + 1, l =>
    match skipWs l with
    | [] => none
    | c :: r =>
      if c = '{' then
        match skipWs r with
        | '}' :: r' => some (.obj [], r')
        | r'' => (pMembers fuel r'').map (fun p => (.obj p.1, p.2))
      else if c = '[' then
        match skipWs r with
        | ']' :: r' => some (.arr [], r')
        | r'' => (pElems fuel r'').map (fun p => (.arr p.1, p.2))
      else if c = '"' then
        (pStr r).map (fun p => (.str p.1, p.2))
      else if c = 't' then
        match r with
        | 'r' :: 'u' :: 'e' :: r' => some (.bool true, r')
        | _ => none
      else if c = 'f' then
        match r with
        | 'a' :: 'l' :: 's' :: 'e' :: r' => some (.bool false, r')
        | _ => none
      else if c = 'n' then
        match r with
        | 'u' :: 'l' :: 'l' :: r' => some (.null, r')
        | _ => none
      else pNum (c :: r)
/-- Array elements after `[` (nonempty case). -/
def pElems : Nat → List Char → Option (List JVal × List Char)
  | 0, _ => none
  | fuel + 1, l =>
    match pVal fuel l with
    | none => none
    | some (v, r) =>
      match skipWs r with
      | ',' :: r' => (pElems fuel r').map (fun p => (v :: p.1, p.2))
      | ']' :: r' => some ([v], r')
      | _ => none
/-- Object members after `{` (nonempty case). -/
def pMembers : Nat → List Char → Option (List (List Char × JVal) × List Char)
  | 0, _ => none
  | fuel + 1, l =>
    match skipWs l with
    | '"' :: r =>
      match pStr r with
      | none => none
      | some (k, r1) =>
        match skipWs r1 with
        | ':' :: r2 =>
          match pVal fuel r2 with
          | none => none
          | some (v, r3) =>
            match skipWs r3 with
            | ',' :: r4 => (pMembers fuel r4).map (fun p => ((k, v) :: p.1, p.2))
            | '}' :: r4 => some ([(k, v)], r4)
            | _ => none
        | _ => none
    | _ => none
end

/-- `JSON.parse`: parse one value and require only whitespace after it. -/
def parseJson (l : List Char) : Option JVal :=
  match pVal (l.length + 1) l with
  | some (v, r) => if (skipWs r).isEmpty then some v else none
  | none => none

/-! #### extractJsonFromText (server/index.ts lines 149–169) -/

/-- `s.replace(/\r?\n/g, "\\n")`: escape bare newlines. -/
def escNl : List Char → List Char
  | [] => []
  | '\r' :: '\n' :: r => '\\' :: 'n' :: escNl r
  | '\n' :: r => '\\' :: 'n' :: escNl r
  | c :: r => c :: escNl r

/-- The inner `tryParse`: direct parse, then the newline-repair parse. -/
def tryParse (s : List Char) : Option JVal :=
  match parseJson s with
  | some v => some v
  | none => parseJson (escNl s)

/-- Case-insensitive character match, as the `i` regex flag performs on
ASCII. -/
def ciMatch (p c : Char) : Bool :=
  p == c || (p.isLower && c.isUpper && p.toNat == c.toNat + 32)
    || (p.isUpper && c.isLower && c.toNat == p.toNat + 32)

/-- Does `pat` match (case-insensitively) at the head of the text? -/
def startsM : List Char → List Char → Bool
  | [], _ => true
  | _ :: _, [] => false
  | p :: ps, c :: cs => ciMatch p c && startsM ps cs

/-- Is there a match of `pat` anywhere in the text? -/
def hasM (pat : List Char) : List Char → Bool
  | [] => startsM pat []
  | c :: cs => startsM pat (c :: cs) || hasM pat cs

/-- `String.prototype.replace` with a global regex and empty replacement:
scan left to right, deleting each (non-overlapping) match.  Fueled by the
text length so that it evaluates by kernel reduction. -/
def removeAllF (p0 : Char) (ps : List Char) : Nat → List Char → List Char
  | 0, l => l
  | _ + 1, [] => []
  | f + 1, c :: cs =>
    if startsM (p0 :: ps) (c :: cs) then removeAllF p0 ps f (cs.drop ps.length)
    else c :: removeAllF p0 ps f cs

def removeAll (p0 : Char) (ps : List Char) (l : List Char) : List Char :=
  removeAllF p0 ps l.length l

/-- The backtick character (0x60). -/
def btick : Char := '\x60'

/-- The pattern of `/```/g`. -/
def fence3 : List Char := [btick, btick, btick]

/-- The pattern of `/```json/gi`. -/
def fenceJson : List Char := [btick, btick, btick, 'j', 's', 'o', 'n']

/-- `cleaned`: strip the fence patterns, then trim. -/
def cleanedOf (text : List Char) : List Char :=
  trimList (removeAll btick [btick, btick]
    (removeAll btick [btick, btick, 'j', 's', 'o', 'n'] text))

/-- Suffix of the text starting at the first `{`. -/
def fromFirstLb : List Char → Option (List Char)
  | [] => none
  | c :: r => if c = '{' then some (c :: r) else fromFirstLb r

/-- Suffix of the text starting at the first `}`. -/
def fromFirstRb : List Char → Option (List Char)
  | [] => none
  | c :: r => if c = '}' then some (c :: r) else fromFirstRb r

/-- `cleaned.slice(first, last + 1)` for the first `{` / last `}`; `none`
when the indices do not make a pair (`first === -1 || last <= first`). -/
def sliceBraces (l : List Char) : Option (List Char) :=
  (fromFirstLb l).bind (fun s => (fromFirstRb s.reverse).map List.reverse)

/-- `extractJsonFromText` from server/index.ts (lines 149–169).  A parse
failure on the sliced substring propagates as the `JSON.parse` exception,
not as the no-JSON-object error. -/
def extractJsonFromText (text : List Char) : Except String JVal :=
  let cleaned := cleanedOf text
  match tryParse cleaned with
  | some v => .ok v
  | none =>
    match sliceBraces cleaned with
    | none => .error "No JSON object found in Claude output."
    | some m =>
      match tryParse m with
      | some v => .ok v
      | none => .error "SyntaxError: JSON.parse"

/-- `t` wrapped in a markdown code fence (the shape LLM output takes). -/
def fenceWrap (t : List Char) : List Char :=
  fenceJson ++ '\n' :: t ++ '\n' :: fence3

/-- A conservative charset for surrounding prose: letters, digits,
spaces and common punctuation — no braces, brackets, quotes, backslashes,
backticks or newlines. -/
def proseChar (c : Char) : Bool :=
  c.isAlpha || c.isDigit || c == ' ' || c == '.' || c == ',' || c == '-' ||
  c == ':' || c == '!' || c == '?'

def proseOk (l : List Char) : Bool := l.all proseChar

/-! #### Pattern matching and removal lemmas -/

theorem ciMatch_self (c : Char) : ciMatch c c = true := by
  simp [ciMatch]

theorem startsM_self (p r : List Char) : startsM p (p ++ r) = true := by
  induction p with
  | nil => rfl
  | cons c cs ih => simp [startsM, ciMatch_self, ih]

theorem startsM_length {p s : List Char} (h : startsM p s = true) :
    p.length ≤ s.length := by
  induction p generalizing s with
  | nil => simp
  | cons c cs ih =>
    cases s with
    | nil => exact absurd h (by simp [startsM])
    | cons d ds =>
      rw [startsM, Bool.and_eq_true] at h
      simpa using ih h.2

theorem startsM_mono (p q s : List Char) (h : startsM (p ++ q) s = true) :
    startsM p s = true := by
  induction p generalizing s with
  | nil => rfl
  | cons c cs ih =>
    cases s with
    | nil => exact absurd h (by simp [startsM])
    | cons d ds =>
      rw [List.cons_append, startsM, Bool.and_eq_true] at h
      rw [startsM, Bool.and_eq_true]
      exact ⟨h.1, ih ds h.2⟩

theorem hasM_mono (p q l : List Char) (h : hasM p l = false) :
    hasM (p ++ q) l = false := by
  induction l with
  | nil =>
    rw [hasM] at h ⊢
    rw [Bool.eq_false_iff]
    intro hq
    exact absurd (startsM_mono p q [] hq) (by simp [h])
  | cons c cs ih =>
    rw [hasM, Bool.or_eq_false_iff] at h ⊢
    refine ⟨?_, ih h.2⟩
    rw [Bool.eq_false_iff]
    intro hq
    exact absurd (startsM_mono p q (c :: cs) hq) (by simp [h.1])

theorem hasM_suffix {pat l b : List Char} (h : hasM pat l = false)
    (hb : b <:+ l) : startsM pat b = false := by
  induction l with
  | nil =>
    rw [List.suffix_nil] at hb
    subst hb
    rw [hasM] at h
    exact h
  | cons c cs ih =>
    rw [hasM, Bool.or_eq_false_iff] at h
    rcases hb with ⟨a, ha⟩
    cases a with
    | nil =>
      rw [List.nil_append] at ha
      rw [ha]
      exact h.1
    | cons x xs =>
      rw [List.cons_append] at ha
      injection ha with hx hxs
      exact ih h.2 ⟨xs, hxs⟩

theorem removeAllF_id (p0 : Char) (ps l : List Char)
    (h : hasM (p0 :: ps) l = false) : ∀ f, removeAllF p0 ps f l = l := by
  induction l with
  | nil => intro f; cases f <;> rfl
  | cons c cs ih =>
    intro f
    cases f with
    | zero => rfl
    | succ f =>
      rw [hasM, Bool.or_eq_false_iff] at h
      rw [removeAllF, if_neg (by simp [h.1]), ih h.2 f]

theorem removeAllF_append (p0 : Char) (ps a b : List Char)
    (h : ∀ a₂, a₂ ≠ [] → a₂ <:+ a → startsM (p0 :: ps) (a₂ ++ b) = false) :
    ∀ f, removeAllF p0 ps (a.length + f) (a ++ b) = a ++ removeAllF p0 ps f b := by
  induction a with
  | nil => intro f; simp
  | cons c cs ih =>
    intro f
    have hstart : startsM (p0 :: ps) (c :: (cs ++ b)) = false := by
      have hh := h (c :: cs) (by simp) (List.suffix_refl _)
      rw [List.cons_append] at hh
      exact hh
    have hlen : (c :: cs).length + f = (cs.length + f) + 1 := by
      simp [List.length_cons]; omega
    rw [hlen, List.cons_append, removeAllF, if_neg (by simp [hstart]),
      ih (fun a₂ hne hs => h a₂ hne (hs.trans (List.suffix_cons c cs))) f,
      List.cons_append]

/-! #### Fence-pattern facts -/

theorem ciMatch_btick {c : Char} (h : ciMatch btick c = true) : c = btick := by
  rw [ciMatch] at h
  simp only [btick] at h ⊢
  rcases Bool.or_eq_true_iff.mp h with h | h
  · rcases Bool.or_eq_true_iff.mp h with h | h
    · exact (beq_iff_eq.mp h).symm
    · rw [Bool.and_eq_true, Bool.and_eq_true] at h
      exact absurd h.1.1 (by decide)
  · rw [Bool.and_eq_true, Bool.and_eq_true] at h
    exact absurd h.1.1 (by decide)

theorem startsM_fence3 {s : List Char} (h : startsM fence3 s = true) :
    ∃ r, s = btick :: btick :: btick :: r := by
  rcases s with _ | ⟨a, _ | ⟨b, _ | ⟨c, r⟩⟩⟩ <;>
    simp only [fence3, startsM, Bool.and_eq_true] at h
  · exact absurd h (by simp)
  · exact absurd h.2 (by simp)
  · exact absurd h.2.2 (by simp)
  · exact ⟨r, by rw [ciMatch_btick h.1, ciMatch_btick h.2.1, ciMatch_btick h.2.2.1]⟩

/-- No `fence3` match in `'\n' :: t` when `t` is fence-free. -/
theorem hasM_fence3_nl {t : List Char} (ht : hasM fence3 t = false) :
    hasM fence3 ('\n' :: t) = false := by
  rw [hasM, Bool.or_eq_false_iff]
  refine ⟨?_, ht⟩
  rw [Bool.eq_false_iff]
  intro hs
  obtain ⟨r, hr⟩ := startsM_fence3 hs
  injection hr with h1 h2
  exact absurd h1 (by decide)

/-! #### Slice lemmas -/

theorem fromFirstLb_not {l : List Char} (h : '{' ∉ l) : fromFirstLb l = none := by
  induction l with
  | nil => rfl
  | cons c cs ih =>
    rw [fromFirstLb, if_neg (by simp at h; exact fun hc => h.1 hc.symm)]
    exact ih (by simp at h; exact h.2)

theorem fromFirstRb_not {l : List Char} (h : '}' ∉ l) : fromFirstRb l = none := by
  induction l with
  | nil => rfl
  | cons c cs ih =>
    rw [fromFirstRb, if_neg (by simp at h; exact fun hc => h.1 hc.symm)]
    exact ih (by simp at h; exact h.2)

theorem fromFirstLb_spec {l s : List Char} (h : fromFirstLb l = some s) :
    ∃ a r, l = a ++ s ∧ s = '{' :: r := by
  induction l with
  | nil => exact absurd h (by simp [fromFirstLb])
  | cons c cs ih =>
    rw [fromFirstLb] at h
    by_cases hc : c = '{'
    · rw [if_pos hc] at h
      exact ⟨[], cs, by simp [Option.some_inj.mp h], by rw [← Option.some_inj.mp h, hc]⟩
    · rw [if_neg hc] at h
      obtain ⟨a, r, hl, hs⟩ := ih h
      exact ⟨c :: a, r, by simp [hl], hs⟩

theorem fromFirstLb_append {a b : List Char} (h : '{' ∉ a) :
    fromFirstLb (a ++ b) = fromFirstLb b := by
  induction a with
  | nil => rfl
  | cons c cs ih =>
    rw [List.cons_append, fromFirstLb, if_neg (by simp at h; exact fun hc => h.1 hc.symm)]
    exact ih (by simp at h; exact h.2)

theorem sliceBraces_none {l : List Char}
    (h : ∀ a b, l = a ++ '{' :: b → '}' ∉ b) : sliceBraces l = none := by
  rw [sliceBraces]
  cases hfb : fromFirstLb l with
  | none => rfl
  | some s =>
    obtain ⟨a, r, hl, hs⟩ := fromFirstLb_spec hfb
    have hr : '}' ∉ r := h a r (by rw [hl, hs])
    have hsrev : '}' ∉ s.reverse := by
      rw [hs]
      simp only [List.mem_reverse, List.mem_cons]
      rintro (hc | hc)
      · exact absurd hc (by decide)
      · exact hr hc
    rw [Option.some_bind, fromFirstRb_not hsrev]
    rfl

/-! #### Prose and newline-escape lemmas -/

theorem proseChar_not {c : Char} (h : proseChar c = true) :
    c ≠ '{' ∧ c ≠ '}' ∧ c ≠ btick ∧ c ≠ '\n' ∧ c ≠ '\r' ∧ c ≠ '[' ∧
      c ≠ '"' ∧ c ≠ '\\' ∧ c ≠ ']' := by
  refine ⟨?_, ?_, ?_, ?_, ?_, ?_, ?_, ?_, ?_⟩ <;> rintro rfl <;> revert h <;> decide

theorem escNl_id {l : List Char} (h : ∀ c ∈ l, c ≠ '\n' ∧ c ≠ '\r') :
    escNl l = l := by
  induction l with
  | nil => rfl
  | cons c cs ih =>
    have hc := h c (List.mem_cons_self c cs)
    have hcs : escNl cs = cs := ih (fun d hd => h d (List.mem_cons_of_mem c hd))
    rw [escNl.eq_def]
    split
    · rename_i heq
      exact absurd heq (by simp)
    · rename_i r heq
      injection heq with h1 h2
      exact absurd h1 hc.2
    · rename_i r heq
      injection heq with h1 h2
      exact absurd h1 hc.1
    · rename_i c' r heq
      injection heq with h1 h2
      rw [← h1, ← h2, hcs]

theorem mem_dropWhile_of_not {p : Char → Bool} {x : Char} {l : List Char}
    (hx : p x = false) (h : x ∈ l) : x ∈ l.dropWhile p := by
  induction l with
  | nil => exact absurd h (by simp)
  | cons c cs ih =>
    rw [List.dropWhile_cons]
    by_cases hc : p c = true
    · rw [if_pos hc]
      rcases List.mem_cons.mp h with rfl | hmem
      · exact absurd hc (by simp [hx])
      · exact ih hmem
    · rw [if_neg hc]
      exact h

theorem skipWs_ne_nil_of_mem {x : Char} {l : List Char} (hx : jsonWs x = false)
    (h : x ∈ l) : skipWs l ≠ [] := by
  intro hnil
  rw [skipWs, List.dropWhile_eq_nil_iff] at hnil
  exact absurd (hnil x h) (by simp [hx])

/-! #### Digit-run and primitive-token round trips -/

theorem natReprL_eq (n : Nat) : natReprL n = (natRepr n).data := rfl

theorem takeWhile_append_all (p : Char → Bool) (a b : List Char)
    (ha : ∀ c ∈ a, p c = true) (hb : ∀ c, b.head? = some c → p c = false) :
    (a ++ b).takeWhile p = a ∧ (a ++ b).dropWhile p = b := by
  induction a with
  | nil =>
    rw [List.nil_append]
    cases b with
    | nil => exact ⟨rfl, rfl⟩
    | cons c cs =>
      rw [List.takeWhile_cons, List.dropWhile_cons]
      have hc : p c = false := hb c rfl
      rw [hc]
      exact ⟨rfl, rfl⟩
  | cons x xs ih =>
    obtain ⟨hT, hD⟩ := ih (fun c hc => ha c (List.mem_cons_of_mem x hc))
    have hx : p x = true := ha x (List.mem_cons_self x xs)
    rw [List.cons_append, List.takeWhile_cons, List.dropWhile_cons, hx]
    simp only [if_true]
    exact ⟨by rw [hT], by rw [hD]⟩

theorem digitChar_isDigit {d : Nat} (hd : d < 10) : (digitChar d).isDigit = true := by
  interval_cases d <;> decide

theorem digVal_digitChar {d : Nat} (hd : d < 10) : digVal (digitChar d) = d := by
  interval_cases d <;> decide

theorem digitChar_eq_z {d : Nat} (hd : d < 10) (h : digitChar d = '0') : d = 0 := by
  interval_cases d <;> revert h <;> decide

theorem natDigsF_ne_nil (f n : Nat) (hn : 0 < n) (hf : 0 < f) :
    natDigsF f n ≠ [] := by
  cases f with
  | zero => omega
  | succ f =>
    rw [natDigsF, if_neg (by omega)]
    simp

theorem natDigsF_head : ∀ f n, 0 < n → n ≤ f →
    ∀ c, (natDigsF f n).head? = some c → c ≠ '0' := by
  intro f
  induction f with
  | zero => intro n hn hf c hc; omega
  | succ f ih =>
    intro n hn hf c hc
    rw [natDigsF, if_neg (by omega)] at hc
    by_cases hq : n / 10 = 0
    · have hnil : natDigsF f (n / 10) = [] := by
        cases f <;> simp [natDigsF, hq]
      rw [hnil, List.nil_append] at hc
      obtain rfl : digitChar (n % 10) = c := by simpa using hc
      intro h0
      have hm : n % 10 = 0 := digitChar_eq_z (Nat.mod_lt _ (by omega)) h0
      omega
    · have hd : n / 10 ≤ f := by
        have := Nat.div_lt_self hn (by omega : 1 < 10)
        omega
      cases hnil : natDigsF f (n / 10) with
      | nil => exact absurd hnil (natDigsF_ne_nil f (n / 10) (by omega) (by omega))
      | cons x xs =>
        rw [hnil, List.cons_append] at hc
        refine ih (n / 10) (by omega) hd c ?_
        rw [hnil]
        simpa using hc

theorem natReprL_nlz (n : Nat) :
    ¬(1 < (natReprL n).length ∧ (natReprL n).head? = some '0') := by
  rintro ⟨hlen, hhead⟩
  by_cases hn : n = 0
  · rw [natReprL, if_pos hn] at hlen
    simp at hlen
  · rw [natReprL, if_neg hn, natDigs] at hhead
    exact natDigsF_head n n (by omega) (le_refl n) '0' hhead rfl

theorem digsToNat_natDigsF : ∀ f n, n ≤ f → ∀ a : Nat,
    List.foldl (fun acc c => 10 * acc + digVal c) a (natDigsF f n)
      = a * 10 ^ (natDigsF f n).length + n := by
  intro f
  induction f with
  | zero => intro n hf a; interval_cases n; simp [natDigsF]
  | succ f ih =>
    intro n hf a
    by_cases h0 : n = 0
    · subst h0; simp [natDigsF]
    · rw [natDigsF, if_neg h0, List.foldl_append, ih (n / 10) (by
        have := Nat.div_lt_self (by omega : 0 < n) (by omega : 1 < 10)
        omega) a]
      rw [List.foldl_cons, List.foldl_nil, digVal_digitChar (Nat.mod_lt _ (by omega)),
        List.length_append, List.length_cons, List.length_nil]
      rw [pow_succ, ← mul_assoc]
      have harith : ∀ M q r : Nat, n = 10 * q + r →
          10 * (M + q) + r = M * 10 + n := by intro M q r hqr; omega
      exact harith (a * 10 ^ (natDigsF f (n / 10)).length) (n / 10) (n % 10)
        (by omega)

theorem digsToNat_natReprL (n : Nat) : digsToNat (natReprL n) = n := by
  by_cases hn : n = 0
  · subst hn; rfl
  · rw [natReprL, if_neg hn, natDigs, digsToNat,
      digsToNat_natDigsF n n (le_refl n) 0]
    simp

theorem pDigs_natReprL (n : Nat) (rest : List Char)
    (hr : ∀ c, rest.head? = some c →
      c.isDigit = false ∧ c ≠ '.' ∧ c ≠ 'e' ∧ c ≠ 'E') :
    pDigs (natReprL n ++ rest) = some (n, rest) := by
  obtain ⟨hT, hD⟩ := takeWhile_append_all Char.isDigit (natReprL n) rest
    (fun c hc => by
      obtain ⟨d, hd, rfl⟩ := natRepr_digits n c (natReprL_eq n ▸ hc)
      exact digitChar_isDigit hd)
    (fun c hc => (hr c hc).1)
  rw [pDigs, hT, hD]
  rw [if_neg (by
    rw [List.isEmpty_iff]
    exact natReprL_eq n ▸ natRepr_ne_nil n)]
  rw [if_neg (natReprL_nlz n)]
  rw [if_neg (by
    rintro (hc | hc | hc)
    · exact absurd rfl (hr '.' hc).2.1
    · exact absurd rfl (hr 'e' hc).2.2.1
    · exact absurd rfl (hr 'E' hc).2.2.2)]
  rw [digsToNat_natReprL]

theorem intRepr_shape (i : ℤ) : (i < 0 ∧ intRepr i = '-' :: natReprL (-i).toNat) ∨
    (0 ≤ i ∧ intRepr i = natReprL i.toNat) := by
  by_cases hi : i < 0
  · exact Or.inl ⟨hi, by rw [intRepr, if_pos hi]⟩
  · exact Or.inr ⟨by omega, by rw [intRepr, if_neg hi]⟩

theorem natReprL_head (n : Nat) : ∃ d t, d < 10 ∧ natReprL n = digitChar d :: t := by
  cases hc : natReprL n with
  | nil => exact absurd hc (natReprL_eq n ▸ natRepr_ne_nil n)
  | cons c t =>
    obtain ⟨d, hd, rfl⟩ := natRepr_digits n c
      (natReprL_eq n ▸ (hc ▸ List.mem_cons_self c t))
    exact ⟨d, t, hd, rfl⟩

theorem pNum_intRepr (i : ℤ) (rest : List Char)
    (hr : ∀ c, rest.head? = some c →
      c.isDigit = false ∧ c ≠ '.' ∧ c ≠ 'e' ∧ c ≠ 'E') :
    pNum (intRepr i ++ rest) = some (.num i, rest) := by
  rcases intRepr_shape i with ⟨hi, hrep⟩ | ⟨hi, hrep⟩
  · rw [hrep, List.cons_append]
    have hred : pNum ('-' :: (natReprL (-i).toNat ++ rest)) =
        (pDigs (natReprL (-i).toNat ++ rest)).map
          (fun p => (JVal.num (-(p.1 : ℤ)), p.2)) := rfl
    rw [hred, pDigs_natReprL _ rest hr]
    have hcast : -(((-i).toNat : ℤ)) = i := by omega
    show some (JVal.num (-(((-i).toNat : ℤ))), rest) = some (JVal.num i, rest)
    rw [hcast]
  · rw [hrep]
    obtain ⟨d, t, hd, hrepr⟩ := natReprL_head i.toNat
    rw [hrepr, List.cons_append, pNum.eq_def]
    split
    · rename_i r heq
      injection heq with h1 h2
      exact absurd h1.symm (by interval_cases d <;> decide)
    · rw [← List.cons_append, ← hrepr, pDigs_natReprL _ rest hr]
      have hcast : ((i.toNat : ℤ)) = i := by omega
      show some (JVal.num ((i.toNat : ℤ)), rest) = some (JVal.num i, rest)
      rw [hcast]

/-! #### String-literal round trip -/

theorem mem_escStr {s : List Char} {c : Char} (hc : c ∈ s) : c ∈ escStr s := by
  induction s with
  | nil => exact absurd hc (by simp)
  | cons a t ih =>
    rw [escStr, List.map_cons, List.flatten_cons, List.mem_append]
    rcases List.mem_cons.mp hc with rfl | hmem
    · left
      rw [escChar]
      by_cases hq : c = '"' ∨ c = '\\'
      · rw [if_pos hq]; simp
      · rw [if_neg hq]; simp
    · exact Or.inr (ih hmem)

theorem pStr_escStr (s rest : List Char) (hs : ∀ c ∈ s, 32 ≤ c.toNat) :
    pStr (escStr s ++ '"' :: rest) = some (s, rest) := by
  induction s with
  | nil => rfl
  | cons c cs ih =>
    have hcs : pStr (escStr cs ++ '"' :: rest) = some (cs, rest) :=
      ih (fun d hd => hs d (List.mem_cons_of_mem c hd))
    rw [escStr, List.map_cons, List.flatten_cons, ← escStr, List.append_assoc, escChar]
    by_cases hq : c = '"' ∨ c = '\\'
    · rw [if_pos hq]
      have hred : pStr ('\\' :: c :: (escStr cs ++ '"' :: rest)) =
          (if c = '"' ∨ c = '\\' ∨ c = '/' then
            (pStr (escStr cs ++ '"' :: rest)).map (fun p => (c :: p.1, p.2))
          else if c = 'n' then
            (pStr (escStr cs ++ '"' :: rest)).map (fun p => ('\n' :: p.1, p.2))
          else if c = 't' then
            (pStr (escStr cs ++ '"' :: rest)).map (fun p => ('\t' :: p.1, p.2))
          else if c = 'r' then
            (pStr (escStr cs ++ '"' :: rest)).map (fun p => ('\x0d' :: p.1, p.2))
          else if c = 'b' then
            (pStr (escStr cs ++ '"' :: rest)).map (fun p => ('\x08' :: p.1, p.2))
          else if c = 'f' then
            (pStr (escStr cs ++ '"' :: rest)).map (fun p => ('\x0c' :: p.1, p.2))
          else none) := rfl
      rw [List.cons_append, List.cons_append, List.nil_append, hred,
        if_pos (by rcases hq with h | h <;> simp [h]), hcs]
      rfl
    · rw [if_neg hq]
      rw [List.cons_append, List.nil_append]
      rw [pStr.eq_def]
      split
      · rename_i heq
        exact absurd heq (by simp)
      · rename_i r heq
        injection heq with h1 h2
        exact absurd h1 (by intro hc; exact hq (Or.inl hc))
      · rename_i d r heq
        injection heq with h1 h2
        exact absurd h1 (by intro hc; exact hq (Or.inr hc))
      · rename_i d r hne1 hne2 heq
        injection heq with h1 h2
        rw [← h1, ← h2,
          if_neg (by
            have := hs c (List.mem_cons_self c cs)
            omega),
          hcs]
        rfl

/-! #### Round-trip helpers -/

/-- Characters that may legally follow a serialized value mid-document. -/
def stopTok : List Char → Bool
  | [] => true
  | c :: _ => c == ',' || c == ']' || c == '}'

theorem stopTok_head {rest : List Char} (h : stopTok rest = true) :
    ∀ c, rest.head? = some c → c = ',' ∨ c = ']' ∨ c = '}' := by
  cases rest with
  | nil => intro c hc; simp at hc
  | cons d ds =>
    intro c hc
    obtain rfl : d = c := by simpa using hc
    rw [stopTok] at h
    simp only [Bool.or_eq_true, beq_iff_eq] at h
    tauto

theorem stopTok_num_ok {rest : List Char} (h : stopTok rest = true) :
    ∀ c, rest.head? = some c →
      c.isDigit = false ∧ c ≠ '.' ∧ c ≠ 'e' ∧ c ≠ 'E' := by
  intro c hc
  rcases stopTok_head h c hc with rfl | rfl | rfl <;> refine ⟨by decide, by decide, by decide, by decide⟩

theorem mval_pos : ∀ o, 0 < mval o := by
  intro o
  cases o <;> simp [mval]

theorem mlist_pos : ∀ xs, 0 < mlist xs := by
  intro xs
  cases xs <;> simp [mlist]

theorem mkvs_pos : ∀ kvs, 0 < mkvs kvs := by
  intro kvs
  rcases kvs with _ | ⟨⟨k, v⟩, kvs⟩ <;> simp [mkvs]

/-- The head character of any serialization, with its possible values. -/
def svHead (c : Char) : Prop :=
  c = '{' ∨ c = '[' ∨ c = '"' ∨ c = 't' ∨ c = 'f' ∨ c = 'n' ∨ c = '-' ∨
    ∃ d, d < 10 ∧ c = digitChar d

theorem sv_head (o : JVal) : ∃ c t, sv o = c :: t ∧ svHead c := by
  cases o with
  | null => exact ⟨'n', _, rfl, by simp [svHead]⟩
  | bool b =>
    cases b with
    | true => exact ⟨'t', _, rfl, by simp [svHead]⟩
    | false => exact ⟨'f', _, rfl, by simp [svHead]⟩
  | num i =>
    rcases intRepr_shape i with ⟨hi, hrep⟩ | ⟨hi, hrep⟩
    · exact ⟨'-', _, by rw [sv, hrep], by simp [svHead]⟩
    · obtain ⟨d, t, hd, hrepr⟩ := natReprL_head i.toNat
      exact ⟨digitChar d, t, by rw [sv, hrep, hrepr],
        Or.inr (Or.inr (Or.inr (Or.inr (Or.inr (Or.inr (Or.inr ⟨d, hd, rfl⟩))))))⟩
  | str s => exact ⟨'"', escStr s ++ ['"'], by rw [sv, strLit]; rfl, by simp [svHead]⟩
  | arr xs => exact ⟨'[', _, rfl, by simp [svHead]⟩
  | obj kvs => exact ⟨'{', _, rfl, by simp [svHead]⟩

theorem svHead_facts {c : Char} (h : svHead c) :
    jsonWs c = false ∧ c ≠ ']' ∧ c ≠ '}' ∧ c ≠ ',' ∧ c ≠ ':' := by
  rcases h with rfl | rfl | rfl | rfl | rfl | rfl | rfl | ⟨d, hd, rfl⟩
  · decide
  · decide
  · decide
  · decide
  · decide
  · decide
  · decide
  · interval_cases d <;> decide

theorem skipWs_cons_of {c : Char} (l : List Char) (h : jsonWs c = false) :
    skipWs (c :: l) = c :: l := by
  simp [skipWs, List.dropWhile_cons, h]

theorem pVal_not_kw (fuel : Nat) (c : Char) (r : List Char)
    (hws : jsonWs c = false) (h1 : c ≠ '{') (h2 : c ≠ '[') (h3 : c ≠ '"')
    (h4 : c ≠ 't') (h5 : c ≠ 'f') (h6 : c ≠ 'n') :
    pVal (fuel + 1) (c :: r) = pNum (c :: r) := by
  have hsk : skipWs (c :: r) = c :: r := skipWs_cons_of r hws
  simp only [pVal]
  rw [hsk]
  simp only [h1, h2, h3, h4, h5, h6, if_false]

theorem svKVs_cons_head (k : List Char) (v : JVal)
    (kvs : List (List Char × JVal)) : ∃ M, svKVs ((k, v) :: kvs) = '"' :: M := by
  cases kvs with
  | nil => exact ⟨escStr k ++ '"' :: ':' :: sv v, by simp [svKVs, strLit]⟩
  | cons kv' kvs' =>
    exact ⟨escStr k ++ '"' :: ':' :: (sv v ++ ',' :: svKVs (kv' :: kvs')),
      by simp [svKVs, strLit]⟩

theorem svKVs_cons_shape (k : List Char) (v : JVal)
    (kvs : List (List Char × JVal)) :
    ∃ R, svKVs ((k, v) :: kvs) = '"' :: (escStr k ++ '"' :: ':' :: R) := by
  cases kvs with
  | nil => exact ⟨sv v, by rw [svKVs, strLit]; simp⟩
  | cons kv' kvs' =>
    exact ⟨sv v ++ ',' :: svKVs (kv' :: kvs'), by rw [svKVs, strLit]; simp⟩

theorem pVal_lb (fuel : Nat) (r : List Char) :
    pVal (fuel + 1) ('{' :: r) =
      (match skipWs r with
       | '}' :: r' => some (.obj [], r')
       | r'' => (pMembers fuel r'').map (fun p => (.obj p.1, p.2))) := rfl

theorem pVal_lbrk (fuel : Nat) (r : List Char) :
    pVal (fuel + 1) ('[' :: r) =
      (match skipWs r with
       | ']' :: r' => some (.arr [], r')
       | r'' => (pElems fuel r'').map (fun p => (.arr p.1, p.2))) := rfl

theorem pVal_quote (fuel : Nat) (r : List Char) :
    pVal (fuel + 1) ('"' :: r) =
      (pStr r).map (fun p => (.str p.1, p.2)) := rfl

theorem pElems_succ (fuel : Nat) (l : List Char) :
    pElems (fuel + 1) l =
      (match pVal fuel l with
       | none => none
       | some (v, r) =>
         match skipWs r with
         | ',' :: r' => (pElems fuel r').map (fun p => (v :: p.1, p.2))
         | ']' :: r' => some ([v], r')
         | _ => none) := rfl

theorem pMembers_succ (fuel : Nat) (l : List Char) :
    pMembers (fuel + 1) l =
      (match skipWs l with
       | '"' :: r =>
         match pStr r with
         | none => none
         | some (k, r1) =>
           match skipWs r1 with
           | ':' :: r2 =>
             match pVal fuel r2 with
             | none => none
             | some (v, r3) =>
               match skipWs r3 with
               | ',' :: r4 => (pMembers fuel r4).map (fun p => ((k, v) :: p.1, p.2))
               | '}' :: r4 => some ([(k, v)], r4)
               | _ => none
           | _ => none
       | _ => none) := rfl

/-- Serializer–parser round trip: parsing a serialization (with enough
fuel) recovers the value and leaves the trailing input untouched. -/
theorem rt_main : ∀ fuel : Nat,
    (∀ (o : JVal) (rest : List Char), svOk o = true →
      ((∃ i, o = JVal.num i) → stopTok rest = true) →
      mval o ≤ fuel → pVal fuel (sv o ++ rest) = some (o, rest)) ∧
    (∀ (x : JVal) (xs : List JVal) (rest : List Char),
      (svElems (x :: xs)).all (fun c => 32 ≤ c.toNat) = true →
      mlist (x :: xs) ≤ fuel →
      pElems fuel (svElems (x :: xs) ++ ']' :: rest) = some (x :: xs, rest)) ∧
    (∀ (k : List Char) (v : JVal) (kvs : List (List Char × JVal))
      (rest : List Char),
      (svKVs ((k, v) :: kvs)).all (fun c => 32 ≤ c.toNat) = true →
      mkvs ((k, v) :: kvs) ≤ fuel →
      pMembers fuel (svKVs ((k, v) :: kvs) ++ '}' :: rest) =
        some ((k, v) :: kvs, rest)) := by
  intro fuel
  induction fuel with
  | zero =>
    refine ⟨?_, ?_, ?_⟩
    · intro o rest _ _ hm
      exact absurd hm (by have := mval_pos o; omega)
    · intro x xs rest _ hm
      exact absurd hm (by have := mlist_pos (x :: xs); omega)
    · intro k v kvs rest _ hm
      exact absurd hm (by have := mkvs_pos ((k, v) :: kvs); omega)
  | succ fuel ih =>
    obtain ⟨ihA, ihB, ihC⟩ := ih
    refine ⟨?_, ?_, ?_⟩
    · -- values
      intro o rest hok hstop hm
      cases o with
      | null => rfl
      | bool b => cases b <;> rfl
      | num i =>
        have hr := stopTok_num_ok (hstop ⟨i, rfl⟩)
        rcases intRepr_shape i with ⟨hi, hrep⟩ | ⟨hi, hrep⟩
        · have hsv : sv (.num i) ++ rest = '-' :: (natReprL (-i).toNat ++ rest) := by
            rw [sv, hrep, List.cons_append]
          rw [hsv, pVal_not_kw fuel '-' _ (by decide) (by decide) (by decide)
            (by decide) (by decide) (by decide) (by decide),
            ← List.cons_append, ← hrep]
          exact pNum_intRepr i rest hr
        · obtain ⟨d, t, hd, hrepr⟩ := natReprL_head i.toNat
          have hsv : sv (.num i) ++ rest = digitChar d :: (t ++ rest) := by
            rw [sv, hrep, hrepr, List.cons_append]
          have hfacts : jsonWs (digitChar d) = false ∧ digitChar d ≠ '{' ∧
              digitChar d ≠ '[' ∧ digitChar d ≠ '"' ∧ digitChar d ≠ 't' ∧
              digitChar d ≠ 'f' ∧ digitChar d ≠ 'n' := by
            interval_cases d <;> decide
          rw [hsv, pVal_not_kw fuel _ _ hfacts.1 hfacts.2.1 hfacts.2.2.1
            hfacts.2.2.2.1 hfacts.2.2.2.2.1 hfacts.2.2.2.2.2.1 hfacts.2.2.2.2.2.2,
            ← List.cons_append, ← hrepr, ← hrep]
          exact pNum_intRepr i rest hr
      | str s =>
        have hsv : sv (.str s) ++ rest = '"' :: (escStr s ++ '"' :: rest) := by
          rw [sv, strLit]
          simp
        have hchars : ∀ c ∈ s, 32 ≤ c.toNat := by
          intro c hc
          have hmem : c ∈ sv (.str s) := by
            rw [sv, strLit]
            exact List.mem_append.mpr
              (Or.inl (List.mem_cons_of_mem _ (mem_escStr hc)))
          simpa using List.all_eq_true.mp hok c hmem
        rw [hsv, pVal_quote, pStr_escStr s rest hchars]
        rfl
      | arr xs =>
        cases xs with
        | nil => rfl
        | cons x xs' =>
          have hsv : sv (.arr (x :: xs')) ++ rest =
              '[' :: (svElems (x :: xs') ++ ']' :: rest) := by
            rw [sv]
            simp
          obtain ⟨c, t, hct, hc⟩ := sv_head x
          have hfacts := svHead_facts hc
          have hW : ∃ W, svElems (x :: xs') = c :: W := by
            cases xs' with
            | nil => exact ⟨t, by rw [svElems, hct]⟩
            | cons y ys =>
              exact ⟨t ++ ',' :: svElems (y :: ys), by rw [svElems, hct]; rfl⟩
          obtain ⟨W, hW⟩ := hW
          rw [hsv, pVal_lbrk]
          rw [show skipWs (svElems (x :: xs') ++ ']' :: rest) =
              svElems (x :: xs') ++ ']' :: rest from by
            rw [hW, List.cons_append]
            exact skipWs_cons_of _ hfacts.1]
          split
          · rename_i r' heq
            rw [hW, List.cons_append] at heq
            injection heq with h1 _
            exact absurd h1 hfacts.2.1
          · rw [ihB x xs' rest (by
              have h2 : (sv (.arr (x :: xs'))).all (fun c => 32 ≤ c.toNat) = true := hok
              rw [sv] at h2
              simp only [List.all_append, List.all_cons, Bool.and_eq_true] at h2
              exact h2.1.2) (by
              have he : mval (JVal.arr (x :: xs')) = 1 + mlist (x :: xs') := rfl
              omega)]
            rfl
      | obj kvs =>
        rcases kvs with _ | ⟨⟨k, v⟩, kvs'⟩
        · rfl
        · have hsv : sv (.obj ((k, v) :: kvs')) ++ rest =
              '{' :: (svKVs ((k, v) :: kvs') ++ '}' :: rest) := by
            rw [sv]
            simp
          obtain ⟨M, hM⟩ := svKVs_cons_head k v kvs'
          rw [hsv, pVal_lb]
          rw [show skipWs (svKVs ((k, v) :: kvs') ++ '}' :: rest) =
              svKVs ((k, v) :: kvs') ++ '}' :: rest from by
            rw [hM, List.cons_append]
            exact skipWs_cons_of _ (by decide)]
          split
          · rename_i r' heq
            rw [hM, List.cons_append] at heq
            injection heq with h1 _
            exact absurd h1 (by decide)
          · rw [ihC k v kvs' rest (by
              have h2 : (sv (.obj ((k, v) :: kvs'))).all (fun c => 32 ≤ c.toNat) = true := hok
              rw [sv] at h2
              simp only [List.all_append, List.all_cons, Bool.and_eq_true] at h2
              exact h2.1.2) (by
              have he : mval (JVal.obj ((k, v) :: kvs')) = 1 + mkvs ((k, v) :: kvs') := rfl
              omega)]
            rfl
    · -- array elements
      intro x xs rest hall hm
      cases xs with
      | nil =>
        rw [show svElems [x] ++ ']' :: rest = sv x ++ ']' :: rest from rfl,
          pElems_succ]
        have hox : svOk x = true := hall
        rw [ihA x (']' :: rest) hox (fun _ => rfl) (by
          have he : mlist [x] = 1 + max (mval x) (mlist []) := rfl
          have hle := le_max_left (mval x) (mlist ([] : List JVal))
          omega)]
        rfl
      | cons y ys =>
        have hsvE : svElems (x :: y :: ys) ++ ']' :: rest =
            sv x ++ ',' :: (svElems (y :: ys) ++ ']' :: rest) := by
          rw [svElems]
          simp
        rw [hsvE, pElems_succ]
        rw [ihA x (',' :: (svElems (y :: ys) ++ ']' :: rest)) (by
            have h2 := hall
            rw [svElems] at h2
            simp only [List.all_append, List.all_cons, Bool.and_eq_true] at h2
            exact h2.1) (fun _ => rfl) (by
            have he : mlist (x :: y :: ys) = 1 + max (mval x) (mlist (y :: ys)) := rfl
            have hle := le_max_left (mval x) (mlist (y :: ys))
            omega)]
        show (pElems fuel (svElems (y :: ys) ++ ']' :: rest)).map
            (fun p => (x :: p.1, p.2)) = some (x :: y :: ys, rest)
        rw [ihB y ys rest (by
            have h2 := hall
            rw [svElems] at h2
            simp only [List.all_append, List.all_cons, Bool.and_eq_true] at h2
            exact h2.2.2) (by
            have he : mlist (x :: y :: ys) = 1 + max (mval x) (mlist (y :: ys)) := rfl
            have hle := le_max_right (mval x) (mlist (y :: ys))
            omega)]
        rfl
    · -- object members
      intro k v kvs rest hall hm
      have hkchars : ∀ c ∈ k, 32 ≤ c.toNat := by
        intro c hc
        obtain ⟨R, hR⟩ := svKVs_cons_shape k v kvs
        have hmem : c ∈ svKVs ((k, v) :: kvs) := by
          rw [hR]
          exact List.mem_cons_of_mem _
            (List.mem_append.mpr (Or.inl (mem_escStr hc)))
        simpa using List.all_eq_true.mp hall c hmem
      rcases kvs with _ | ⟨⟨k2, v2⟩, kvs'⟩
      · have hsvK : svKVs [(k, v)] ++ '}' :: rest =
            '"' :: (escStr k ++ '"' :: ':' :: (sv v ++ '}' :: rest)) := by
          rw [svKVs]
          simp [strLit]
        have hov : svOk v = true := by
          have h2 := hall
          rw [svKVs] at h2
          simp only [strLit, List.all_append, List.all_cons, Bool.and_eq_true] at h2
          exact h2.2.2
        have hps := pStr_escStr k (':' :: (sv v ++ '}' :: rest)) hkchars
        have hpv := ihA v ('}' :: rest) hov (fun _ => rfl) (by
          have he : mkvs [(k, v)] = 1 + max (mval v) (mkvs []) := rfl
          have hle := le_max_left (mval v) (mkvs ([] : List (List Char × JVal)))
          omega)
        rw [hsvK, pMembers_succ, skipWs_cons_of _ (by decide)]
        simp only [hps, hpv, skipWs_cons_of _ (by decide : jsonWs ':' = false),
          skipWs_cons_of _ (by decide : jsonWs '}' = false)]
      · have hsvK : svKVs ((k, v) :: (k2, v2) :: kvs') ++ '}' :: rest =
            '"' :: (escStr k ++ '"' :: ':' ::
              (sv v ++ ',' :: (svKVs ((k2, v2) :: kvs') ++ '}' :: rest))) := by
          rw [svKVs]
          simp [strLit]
        have hov : svOk v = true := by
          have h2 := hall
          rw [svKVs] at h2
          simp only [strLit, List.all_append, List.all_cons, Bool.and_eq_true] at h2
          exact h2.1.2.2
        have htail : (svKVs ((k2, v2) :: kvs')).all (fun c => 32 ≤ c.toNat) = true := by
          have h2 := hall
          rw [svKVs] at h2
          simp only [strLit, List.all_append, List.all_cons, Bool.and_eq_true] at h2
          exact h2.2.2
        have hps := pStr_escStr k
          (':' :: (sv v ++ ',' :: (svKVs ((k2, v2) :: kvs') ++ '}' :: rest))) hkchars
        have hpv := ihA v (',' :: (svKVs ((k2, v2) :: kvs') ++ '}' :: rest)) hov
          (fun _ => rfl) (by
          have he : mkvs ((k, v) :: (k2, v2) :: kvs') =
            1 + max (mval v) (mkvs ((k2, v2) :: kvs')) := rfl
          have hle := le_max_left (mval v) (mkvs ((k2, v2) :: kvs'))
          omega)
        have hpm := ihC k2 v2 kvs' rest htail (by
          have he : mkvs ((k, v) :: (k2, v2) :: kvs') =
            1 + max (mval v) (mkvs ((k2, v2) :: kvs')) := rfl
          have hle := le_max_right (mval v) (mkvs ((k2, v2) :: kvs'))
          omega)
        rw [hsvK, pMembers_succ, skipWs_cons_of _ (by decide)]
        simp only [hps, hpv, hpm, skipWs_cons_of _ (by decide : jsonWs ':' = false),
          skipWs_cons_of _ (by decide : jsonWs ',' = false)]
        rfl

/-- The parser measure is bounded by the serialization length, so the
length-based fuel in `parseJson` is always sufficient. -/
theorem measure_le_sv : ∀ n : Nat,
    (∀ o, mval o ≤ n → mval o ≤ (sv o).length + 1) ∧
    (∀ xs, mlist xs ≤ n → mlist xs ≤ (svElems xs).length + 2) ∧
    (∀ kvs, mkvs kvs ≤ n → mkvs kvs ≤ (svKVs kvs).length + 2) := by
  intro n
  induction n with
  | zero =>
    refine ⟨?_, ?_, ?_⟩
    · intro o hm; exact absurd hm (by have := mval_pos o; omega)
    · intro xs hm; exact absurd hm (by have := mlist_pos xs; omega)
    · intro kvs hm; exact absurd hm (by have := mkvs_pos kvs; omega)
  | succ n ih =>
    obtain ⟨ihV, ihL, ihK⟩ := ih
    refine ⟨?_, ?_, ?_⟩
    · intro o hm
      cases o with
      | null => have he : mval JVal.null = 1 := rfl; omega
      | bool b => have he : mval (JVal.bool b) = 1 := rfl; omega
      | num i => have he : mval (JVal.num i) = 1 := rfl; omega
      | str s => have he : mval (JVal.str s) = 1 := rfl; omega
      | arr xs =>
        cases xs with
        | nil =>
          have he : mval (JVal.arr []) = 1 + mlist [] := rfl
          have he2 : mlist ([] : List JVal) = 1 := rfl
          have hlen : (sv (JVal.arr [])).length = 2 := rfl
          omega
        | cons x xs' =>
          have he : mval (JVal.arr (x :: xs')) = 1 + mlist (x :: xs') := rfl
          have hlen : (sv (JVal.arr (x :: xs'))).length =
              (svElems (x :: xs')).length + 2 := by
            simp [sv]
          have hrec := ihL (x :: xs') (by omega)
          omega
      | obj kvs =>
        rcases kvs with _ | ⟨⟨k, v⟩, kvs'⟩
        · have he : mval (JVal.obj []) = 1 + mkvs [] := rfl
          have he2 : mkvs ([] : List (List Char × JVal)) = 1 := rfl
          have hlen : (sv (JVal.obj [])).length = 2 := rfl
          omega
        · have he : mval (JVal.obj ((k, v) :: kvs')) =
            1 + mkvs ((k, v) :: kvs') := rfl
          have hlen : (sv (JVal.obj ((k, v) :: kvs'))).length =
              (svKVs ((k, v) :: kvs')).length + 2 := by
            simp [sv]
          have hrec := ihK ((k, v) :: kvs') (by omega)
          omega
    · intro xs hm
      rcases xs with _ | ⟨x, _ | ⟨y, ys⟩⟩
      · have he : mlist ([] : List JVal) = 1 := rfl; omega
      · have he : mlist [x] = 1 + max (mval x) (mlist []) := rfl
        have he2 : mlist ([] : List JVal) = 1 := rfl
        have hle := le_max_left (mval x) (mlist [])
        have hrec := ihV x (by omega)
        have hlen : (svElems [x]).length = (sv x).length := rfl
        rcases max_choice (mval x) (mlist []) with hmax | hmax <;> omega
      · have he : mlist (x :: y :: ys) = 1 + max (mval x) (mlist (y :: ys)) := rfl
        have hle1 := le_max_left (mval x) (mlist (y :: ys))
        have hle2 := le_max_right (mval x) (mlist (y :: ys))
        have hrec1 := ihV x (by omega)
        have hrec2 := ihL (y :: ys) (by omega)
        have hlen : (svElems (x :: y :: ys)).length =
            (sv x).length + 1 + (svElems (y :: ys)).length := by
          rw [show svElems (x :: y :: ys) = sv x ++ ',' :: svElems (y :: ys) from rfl]
          simp
          omega
        rcases max_choice (mval x) (mlist (y :: ys)) with hmax | hmax <;> omega
    · intro kvs hm
      rcases kvs with _ | ⟨⟨k, v⟩, _ | ⟨⟨k2, v2⟩, kvs'⟩⟩
      · have he : mkvs ([] : List (List Char × JVal)) = 1 := rfl; omega
      · have he : mkvs [(k, v)] = 1 + max (mval v) (mkvs []) := rfl
        have he2 : mkvs ([] : List (List Char × JVal)) = 1 := rfl
        have hle := le_max_left (mval v) (mkvs [])
        have hrec := ihV v (by omega)
        have hlen : (svKVs [(k, v)]).length =
            (strLit k).length + 1 + (sv v).length := by
          rw [show svKVs [(k, v)] = strLit k ++ ':' :: sv v from rfl]
          simp
          omega
        rcases max_choice (mval v) (mkvs []) with hmax | hmax <;> omega
      · have he : mkvs ((k, v) :: (k2, v2) :: kvs') =
            1 + max (mval v) (mkvs ((k2, v2) :: kvs')) := rfl
        have hle1 := le_max_left (mval v) (mkvs ((k2, v2) :: kvs'))
        have hle2 := le_max_right (mval v) (mkvs ((k2, v2) :: kvs'))
        have hrec1 := ihV v (by omega)
        have hrec2 := ihK ((k2, v2) :: kvs') (by omega)
        have hlen : (svKVs ((k, v) :: (k2, v2) :: kvs')).length =
            (strLit k).length + 1 + (sv v).length + 1 +
              (svKVs ((k2, v2) :: kvs')).length := by
          rw [show svKVs ((k, v) :: (k2, v2) :: kvs') =
            strLit k ++ ':' :: sv v ++ ',' :: svKVs ((k2, v2) :: kvs') from rfl]
          simp
          omega
        rcases max_choice (mval v) (mkvs ((k2, v2) :: kvs')) with hmax | hmax <;> omega

/-- `JSON.parse ∘ JSON.stringify` is the identity on model values. -/
theorem parse_sv (o : JVal) (h : svOk o = true) : parseJson (sv o) = some o := by
  have hb : mval o ≤ (sv o).length + 1 :=
    (measure_le_sv (mval o)).1 o (le_refl _)
  have hp : pVal ((sv o).length + 1) (sv o) = some (o, []) := by
    have hres := (rt_main ((sv o).length + 1)).1 o [] h (fun _ => rfl) hb
    rwa [List.append_nil] at hres
  rw [parseJson, hp]
  rfl

/-! #### Fence-stripping analysis -/

theorem hasM_exists {pat l : List Char} (h : hasM pat l = true) :
    ∃ b, b <:+ l ∧ startsM pat b = true := by
  induction l with
  | nil => exact ⟨[], List.suffix_refl _, by rw [hasM] at h; exact h⟩
  | cons c cs ih =>
    rw [hasM, Bool.or_eq_true] at h
    rcases h with h | h
    · exact ⟨c :: cs, List.suffix_refl _, h⟩
    · obtain ⟨b, hsuf, hst⟩ := ih h
      exact ⟨b, hsuf.trans (List.suffix_cons c cs), hst⟩

theorem suffix_append_cases {b xs ys : List Char} (h : b <:+ xs ++ ys) :
    b <:+ ys ∨ ∃ b2, b = b2 ++ ys ∧ b2 <:+ xs := by
  induction xs with
  | nil => exact Or.inl (by simpa using h)
  | cons x xs' ih =>
    rw [List.cons_append, List.suffix_cons_iff] at h
    rcases h with rfl | h
    · exact Or.inr ⟨x :: xs', by rw [List.cons_append], List.suffix_refl _⟩
    · rcases ih h with h | ⟨b2, rfl, hb2⟩
      · exact Or.inl h
      · exact Or.inr ⟨b2, rfl, hb2.trans (List.suffix_cons x xs')⟩

theorem startsM_cons_false {p c : Char} {ps cs : List Char}
    (h : ciMatch p c = false) : startsM (p :: ps) (c :: cs) = false := by
  simp [startsM, h]

theorem startsM_second_false {p1 p2 c1 c2 : Char} {ps cs : List Char}
    (h : ciMatch p2 c2 = false) : startsM (p1 :: p2 :: ps) (c1 :: c2 :: cs) = false := by
  rw [startsM, startsM, h]
  simp

theorem startsM_third_false {p1 p2 p3 c1 c2 c3 : Char} {ps cs : List Char}
    (h : ciMatch p3 c3 = false) :
    startsM (p1 :: p2 :: p3 :: ps) (c1 :: c2 :: c3 :: cs) = false := by
  rw [startsM, startsM, startsM, h]
  simp

theorem startsM_fence3_prefix {b r : List Char} (hb : 3 ≤ b.length)
    (h : startsM fence3 (b ++ r) = true) : startsM fence3 b = true := by
  rcases b with _ | ⟨x, _ | ⟨y, _ | ⟨z, b2⟩⟩⟩
  · simp at hb
  · simp at hb
  · simp at hb
  · obtain ⟨q, hq⟩ := startsM_fence3 h
    rw [List.cons_append, List.cons_append, List.cons_append] at hq
    obtain ⟨h1, hq⟩ := List.cons_eq_cons.mp hq
    obtain ⟨h2, hq⟩ := List.cons_eq_cons.mp hq
    obtain ⟨h3, hq⟩ := List.cons_eq_cons.mp hq
    rw [h1, h2, h3]
    rfl

/-- No fence match in `u ++ w` when `u` is fence-free and `w` is
backtick-free. -/
theorem hasM_fence3_concat {u w : List Char} (hu : hasM fence3 u = false)
    (hw : ∀ c ∈ w, c ≠ btick) : hasM fence3 (u ++ w) = false := by
  by_contra hcon
  rw [Bool.not_eq_false] at hcon
  obtain ⟨b, hsuf, hst⟩ := hasM_exists hcon
  rcases suffix_append_cases hsuf with hbw | ⟨b2, rfl, hb2⟩
  · obtain ⟨q, hq⟩ := startsM_fence3 hst
    have : btick ∈ w := hbw.subset (by rw [hq]; simp)
    exact absurd rfl (hw btick this)
  · rcases b2 with _ | ⟨x, _ | ⟨y, _ | ⟨z, b3⟩⟩⟩
    · obtain ⟨q, hq⟩ := startsM_fence3 hst
      rw [List.nil_append] at hq
      exact absurd rfl (hw btick (by rw [hq]; simp))
    · obtain ⟨q, hq⟩ := startsM_fence3 hst
      rw [List.cons_append, List.nil_append] at hq
      injection hq with h1 hq
      exact absurd rfl (hw btick (by rw [hq]; simp))
    · obtain ⟨q, hq⟩ := startsM_fence3 hst
      rw [List.cons_append, List.cons_append, List.nil_append] at hq
      injection hq with h1 hq
      injection hq with h2 hq
      exact absurd rfl (hw btick (by rw [hq]; simp))
    · have h3 : startsM fence3 (x :: y :: z :: b3) = true :=
        startsM_fence3_prefix (by simp) (by
          rw [show (x :: y :: z :: b3) ++ w = (x :: y :: z :: b3) ++ w from rfl]
          exact hst)
      exact absurd h3 (by simp [hasM_suffix hu hb2])

/-- No fence match in `u ++ w` when `u` is backtick-free and `w` is
fence-free. -/
theorem hasM_fence3_concat_left {u w : List Char} (hu : ∀ c ∈ u, c ≠ btick)
    (hw : hasM fence3 w = false) : hasM fence3 (u ++ w) = false := by
  by_contra hcon
  rw [Bool.not_eq_false] at hcon
  obtain ⟨b, hsuf, hst⟩ := hasM_exists hcon
  rcases suffix_append_cases hsuf with hbw | ⟨b2, rfl, hb2⟩
  · exact absurd hst (by simp [hasM_suffix hw hbw])
  · cases b2 with
    | nil =>
      rw [List.nil_append] at hst
      exact absurd hst (by simp [hasM_suffix hw (List.suffix_refl w)])
    | cons x b3 =>
      obtain ⟨q, hq⟩ := startsM_fence3 hst
      rw [List.cons_append] at hq
      injection hq with h1 hq
      exact absurd rfl (hu btick (h1 ▸ hb2.subset (List.mem_cons_self x b3)))

theorem jsonWs_isWs {c : Char} (h : jsonWs c = true) : isWsChar c = true := by
  rw [jsonWs] at h
  rw [isWsChar]
  simp only [Bool.or_eq_true] at h ⊢
  tauto

theorem isWs_false_jsonWs {c : Char} (h : isWsChar c = false) : jsonWs c = false := by
  cases hj : jsonWs c with
  | false => rfl
  | true => exact absurd (jsonWs_isWs hj) (by simp [h])

/-- The markdown wrapper contributes no match of the `json` fence pattern
beyond the leading one. -/
theorem no_fence_in_wrap {t : List Char} (ht : hasM fence3 t = false) :
    hasM fenceJson ('\n' :: (t ++ '\n' :: fence3)) = false := by
  by_contra hcon
  rw [Bool.not_eq_false] at hcon
  obtain ⟨b, hsuf, hst⟩ := hasM_exists hcon
  rw [List.suffix_cons_iff] at hsuf
  rcases hsuf with rfl | hsuf
  · exact absurd hst (by
      simp [fenceJson, startsM_cons_false (show ciMatch btick '\n' = false from by decide)])
  rcases suffix_append_cases hsuf with hsuf | ⟨b2, rfl, hb2⟩
  · have hlen := startsM_length hst
    have hle := hsuf.length_le
    simp [fenceJson] at hlen
    simp [fence3] at hle
    omega
  · rcases b2 with _ | ⟨x, _ | ⟨y, b3⟩⟩
    · rw [List.nil_append] at hst
      exact absurd hst (by
        simp [fenceJson, startsM_cons_false (show ciMatch btick '\n' = false from by decide)])
    · rw [List.cons_append, List.nil_append] at hst
      rw [show ('\n' :: fence3 : List Char) = '\n' :: btick :: btick :: [btick] from rfl,
        show (fenceJson : List Char) =
          btick :: btick :: btick :: ['j', 's', 'o', 'n'] from rfl] at hst
      rw [startsM_second_false (show ciMatch btick '\n' = false from by decide)] at hst
      exact absurd hst (by simp)
    · cases b3 with
      | nil =>
        rw [List.cons_append, List.cons_append, List.nil_append] at hst
        rw [show ('\n' :: fence3 : List Char) = '\n' :: btick :: btick :: [btick] from rfl,
          show (fenceJson : List Char) =
            btick :: btick :: btick :: ['j', 's', 'o', 'n'] from rfl] at hst
        rw [startsM_third_false (show ciMatch btick '\n' = false from by decide)] at hst
        exact absurd hst (by simp)
      | cons z b4 =>
        have hm : startsM fence3 (x :: y :: z :: b4) = true := by
          apply startsM_fence3_prefix (by simp)
          exact startsM_mono fence3 ['j', 's', 'o', 'n'] _ hst
        exact absurd hm (by simp [hasM_suffix ht hb2])

theorem sv_obj_shape (kvs : List (List Char × JVal)) :
    sv (JVal.obj kvs) = '{' :: (svKVs kvs ++ ['}']) := rfl

theorem sv_obj_head (kvs : List (List Char × JVal)) :
    (sv (JVal.obj kvs)).head? = some '{' := rfl

theorem sv_obj_last (kvs : List (List Char × JVal)) :
    (sv (JVal.obj kvs)).getLast? = some '}' := by
  rw [sv_obj_shape]
  rw [show '{' :: (svKVs kvs ++ ['}']) = ('{' :: svKVs kvs) ++ ['}'] from rfl]
  rw [List.getLast?_append_of_ne_nil _ (by simp)]
  rfl

theorem removeAll_id (p0 : Char) (ps l : List Char)
    (h : hasM (p0 :: ps) l = false) : removeAll p0 ps l = l := by
  rw [removeAll, removeAllF_id _ _ _ h]

/-- The cleaning pass leaves a fence-free serialized object untouched. -/
theorem cleanedOf_id_obj (kvs : List (List Char × JVal))
    (ht : hasM fence3 (sv (JVal.obj kvs)) = false) :
    cleanedOf (sv (JVal.obj kvs)) = sv (JVal.obj kvs) := by
  have h7 : hasM fenceJson (sv (JVal.obj kvs)) = false :=
    hasM_mono fence3 ['j', 's', 'o', 'n'] _ ht
  rw [cleanedOf, removeAll_id _ _ _ h7, removeAll_id _ _ _ ht]
  refine trimList_eq_self _ ?_ ?_
  · intro c hc
    rw [sv_obj_head] at hc
    obtain rfl := Option.some_inj.mp hc
    decide
  · intro c hc
    rw [sv_obj_last] at hc
    obtain rfl := Option.some_inj.mp hc
    decide

theorem removeAll_fenceJson_wrap (t : List Char) (ht : hasM fence3 t = false) :
    removeAll btick [btick, btick, 'j', 's', 'o', 'n'] (fenceWrap t) =
      '\n' :: (t ++ '\n' :: fence3) := by
  have hshape : fenceWrap t = fenceJson ++ ('\n' :: (t ++ '\n' :: fence3)) := by
    rw [fenceWrap]
    simp
  have hlen : (fenceJson ++ ('\n' :: (t ++ '\n' :: fence3))).length =
      (6 + ('\n' :: (t ++ '\n' :: fence3)).length) + 1 := by
    rw [List.length_append]
    rw [show (fenceJson : List Char).length = 7 from rfl]
    omega
  rw [removeAll, hshape, hlen]
  rw [show fenceJson ++ ('\n' :: (t ++ '\n' :: fence3)) =
    btick :: ([btick, btick, 'j', 's', 'o', 'n'] ++ ('\n' :: (t ++ '\n' :: fence3)))
    from rfl]
  rw [removeAllF]
  rw [if_pos (show startsM (btick :: [btick, btick, 'j', 's', 'o', 'n'])
    (btick :: ([btick, btick, 'j', 's', 'o', 'n'] ++ ('\n' :: (t ++ '\n' :: fence3)))) = true
    from startsM_self fenceJson ('\n' :: (t ++ '\n' :: fence3)))]
  rw [List.drop_left]
  exact removeAllF_id _ _ _ (no_fence_in_wrap ht) _

theorem removeAll_fence3_wrap (t : List Char) (ht : hasM fence3 t = false) :
    removeAll btick [btick, btick] ('\n' :: (t ++ '\n' :: fence3)) =
      '\n' :: (t ++ ['\n']) := by
  have hcond : ∀ a₂, a₂ ≠ [] → a₂ <:+ ('\n' :: (t ++ ['\n'])) →
      startsM (btick :: [btick, btick]) (a₂ ++ fence3) = false := by
    intro a₂ hne hsuf
    rw [List.suffix_cons_iff] at hsuf
    rcases hsuf with rfl | hsuf
    · rw [List.cons_append]
      exact startsM_cons_false (by decide)
    rcases suffix_append_cases hsuf with hsuf | ⟨b2, rfl, hb2⟩
    · rcases a₂ with _ | ⟨c, _ | ⟨d, a3⟩⟩
      · exact absurd rfl hne
      · have hc : c ∈ ['\n'] := hsuf.subset (List.mem_cons_self c [])
        obtain rfl : c = '\n' := by simpa using hc
        rw [List.cons_append, List.nil_append]
        exact startsM_cons_false (by decide)
      · have hle := hsuf.length_le
        simp at hle
    · rcases b2 with _ | ⟨x, _ | ⟨y, b3⟩⟩
      · rw [List.nil_append, List.cons_append, List.nil_append]
        exact startsM_cons_false (by decide)
      · have hsh : ([x] ++ ['\n']) ++ fence3 = x :: '\n' :: btick :: btick :: [btick] := by
          simp [fence3]
        rw [hsh]
        exact startsM_second_false (by decide)
      · cases b3 with
        | nil =>
          have hsh : ([x, y] ++ ['\n']) ++ fence3 =
              x :: y :: '\n' :: btick :: btick :: [btick] := by
            simp [fence3]
          rw [hsh]
          exact startsM_third_false (by decide)
        | cons z b4 =>
          by_contra hcon2
          rw [Bool.not_eq_false] at hcon2
          have hst : startsM fence3 ((x :: y :: z :: b4) ++ ('\n' :: fence3)) = true := by
            have hsh : ((x :: y :: z :: b4) ++ ['\n']) ++ fence3 =
                (x :: y :: z :: b4) ++ ('\n' :: fence3) := by simp
            rw [hsh] at hcon2
            exact hcon2
          have hm := startsM_fence3_prefix (by simp) hst
          exact absurd hm (by simp [hasM_suffix ht hb2])
  have hshape : '\n' :: (t ++ '\n' :: fence3) = ('\n' :: (t ++ ['\n'])) ++ fence3 := by
    simp
  have hlen : ('\n' :: (t ++ '\n' :: fence3)).length =
      ('\n' :: (t ++ ['\n'])).length + 3 := by
    simp [fence3]
  rw [removeAll, hlen, hshape,
    removeAllF_append btick [btick, btick] _ fence3 hcond 3]
  rw [show removeAllF btick [btick, btick] 3 fence3 = [] from rfl]
  simp

/-- Trimming strips exactly the wrapper newlines around a brace-delimited
object text. -/
theorem trim_nl (t : List Char) (hh : ∀ c, t.head? = some c → isWsChar c = false)
    (hl : ∀ c, t.getLast? = some c → isWsChar c = false) (htn : t ≠ []) :
    trimList ('\n' :: (t ++ ['\n'])) = t := by
  rw [trimList]
  have h1 : ('\n' :: (t ++ ['\n'])).dropWhile isWsChar = t ++ ['\n'] := by
    rw [List.dropWhile_cons, if_pos (by decide)]
    apply dropWhile_eq_self_of_head
    intro c hc
    cases t with
    | nil => exact absurd rfl htn
    | cons a ts =>
      rw [List.cons_append] at hc
      obtain rfl : a = c := by simpa using hc
      exact hh a rfl
  rw [h1, List.reverse_append]
  rw [show (['\n'] : List Char).reverse = ['\n'] from rfl]
  rw [show (['\n'] : List Char) ++ t.reverse = '\n' :: t.reverse from rfl]
  rw [List.dropWhile_cons, if_pos (by decide)]
  rw [dropWhile_eq_self_of_head isWsChar t.reverse (by
    intro c hc
    rw [List.head?_reverse] at hc
    exact hl c hc)]
  exact List.reverse_reverse t

/-- The cleaning pass strips a markdown fence wrapper entirely. -/
theorem cleanedOf_fenceWrap_obj (kvs : List (List Char × JVal))
    (ht : hasM fence3 (sv (JVal.obj kvs)) = false) :
    cleanedOf (fenceWrap (sv (JVal.obj kvs))) = sv (JVal.obj kvs) := by
  rw [cleanedOf, removeAll_fenceJson_wrap _ ht, removeAll_fence3_wrap _ ht]
  refine trim_nl _ ?_ ?_ (by rw [sv_obj_shape]; simp)
  · intro c hc
    rw [sv_obj_head] at hc
    obtain rfl := Option.some_inj.mp hc
    decide
  · intro c hc
    rw [sv_obj_last] at hc
    obtain rfl := Option.some_inj.mp hc
    decide

/-! #### Failure of the direct parse on prose-prefixed input -/

theorem pVal_t (fuel : Nat) (r : List Char) :
    pVal (fuel + 1) ('t' :: r) =
      (match r with
       | 'r' :: 'u' :: 'e' :: r' => some (JVal.bool true, r')
       | _ => none) := rfl

theorem pVal_f (fuel : Nat) (r : List Char) :
    pVal (fuel + 1) ('f' :: r) =
      (match r with
       | 'a' :: 'l' :: 's' :: 'e' :: r' => some (JVal.bool false, r')
       | _ => none) := rfl

theorem pVal_n (fuel : Nat) (r : List Char) :
    pVal (fuel + 1) ('n' :: r) =
      (match r with
       | 'u' :: 'l' :: 'l' :: r' => some (JVal.null, r')
       | _ => none) := rfl

theorem pDigs_rest {l0 : List Char} {n : ℕ} {r : List Char}
    (h : pDigs l0 = some (n, r)) : r = l0.dropWhile Char.isDigit := by
  rw [pDigs] at h
  split at h
  · exact absurd h (by simp)
  · split at h
    · exact absurd h (by simp)
    · split at h
      · exact absurd h (by simp)
      · exact (congrArg Prod.snd (Option.some_inj.mp h)).symm

theorem pNum_rest_mem {l : List Char} {v : JVal} {r : List Char}
    (h : pNum l = some (v, r)) {x : Char} (hxd : x.isDigit = false)
    (hxm : x ≠ '-') (hx : x ∈ l) : x ∈ r := by
  rw [pNum.eq_def] at h
  split at h
  · rename_i r0
    cases hmap : pDigs r0 with
    | none => rw [hmap] at h; exact absurd h (by simp)
    | some p =>
      obtain ⟨n0, r0'⟩ := p
      rw [hmap] at h
      have h2 : (JVal.num (-(n0 : ℤ)), r0') = (v, r) := by simpa using h
      have h3 : r0' = r := congrArg Prod.snd h2
      have hr : r = r0.dropWhile Char.isDigit := by
        rw [← h3]
        exact pDigs_rest hmap
      rw [hr]
      apply mem_dropWhile_of_not hxd
      rcases List.mem_cons.mp hx with hx2 | hmem
      · exact absurd hx2 hxm
      · exact hmem
  · cases hmap : pDigs l with
    | none => rw [hmap] at h; exact absurd h (by simp)
    | some p =>
      obtain ⟨n0, r0'⟩ := p
      rw [hmap] at h
      have h2 : (JVal.num ((n0 : ℤ)), r0') = (v, r) := by simpa using h
      have h3 : r0' = r := congrArg Prod.snd h2
      have hr : r = l.dropWhile Char.isDigit := by
        rw [← h3]
        exact pDigs_rest hmap
      rw [hr]
      exact mem_dropWhile_of_not hxd hx

/-- With a nonempty prose prefix in front of the object text, the direct
`JSON.parse` of the whole cleaned string fails. -/
theorem parseJson_prose_front (a m : List Char) (ha : a ≠ [])
    (hprose : ∀ c ∈ a, proseChar c = true)
    (hhead : ∀ c, a.head? = some c → isWsChar c = false)
    (hm : '{' ∈ m) : parseJson (a ++ m) = none := by
  rcases a with _ | ⟨c0, a'⟩
  · exact absurd rfl ha
  have hc0p := hprose c0 (List.mem_cons_self c0 a')
  have hc0w : isWsChar c0 = false := hhead c0 rfl
  have hc0jw : jsonWs c0 = false := isWs_false_jsonWs hc0w
  obtain ⟨hn1, hn2, hn3, hn4, hn5, hn6, hn7, hn8, hn9⟩ := proseChar_not hc0p
  have hmm : '{' ∈ a' ++ m := List.mem_append.mpr (Or.inr hm)
  rw [List.cons_append, parseJson,
    show (c0 :: (a' ++ m)).length = (a' ++ m).length + 1 from rfl]
  by_cases ht : c0 = 't'
  · subst ht
    cases hres : pVal ((a' ++ m).length + 1 + 1) ('t' :: (a' ++ m)) with
    | none => rfl
    | some p =>
      rw [pVal_t] at hres
      split at hres
      · rename_i r' heq
        obtain rfl : (JVal.bool true, r') = p := Option.some_inj.mp hres
        have hin : '{' ∈ r' := by
          rw [heq] at hmm
          simp only [List.mem_cons] at hmm
          rcases hmm with h2 | h2 | h2 | h2
          · exact absurd h2 (by decide)
          · exact absurd h2 (by decide)
          · exact absurd h2 (by decide)
          · exact h2
        have hne := skipWs_ne_nil_of_mem (by decide : jsonWs '{' = false) hin
        show (if (skipWs r').isEmpty = true then some (JVal.bool true) else none) = none
        rw [if_neg (by simpa using hne)]
      · exact absurd hres (by simp)
  by_cases hf : c0 = 'f'
  · subst hf
    cases hres : pVal ((a' ++ m).length + 1 + 1) ('f' :: (a' ++ m)) with
    | none => rfl
    | some p =>
      rw [pVal_f] at hres
      split at hres
      · rename_i r' heq
        obtain rfl : (JVal.bool false, r') = p := Option.some_inj.mp hres
        have hin : '{' ∈ r' := by
          rw [heq] at hmm
          simp only [List.mem_cons] at hmm
          rcases hmm with h2 | h2 | h2 | h2 | h2
          · exact absurd h2 (by decide)
          · exact absurd h2 (by decide)
          · exact absurd h2 (by decide)
          · exact absurd h2 (by decide)
          · exact h2
        have hne := skipWs_ne_nil_of_mem (by decide : jsonWs '{' = false) hin
        show (if (skipWs r').isEmpty = true then some (JVal.bool false) else none) = none
        rw [if_neg (by simpa using hne)]
      · exact absurd hres (by simp)
  by_cases hn : c0 = 'n'
  · subst hn
    cases hres : pVal ((a' ++ m).length + 1 + 1) ('n' :: (a' ++ m)) with
    | none => rfl
    | some p =>
      rw [pVal_n] at hres
      split at hres
      · rename_i r' heq
        obtain rfl : (JVal.null, r') = p := Option.some_inj.mp hres
        have hin : '{' ∈ r' := by
          rw [heq] at hmm
          simp only [List.mem_cons] at hmm
          rcases hmm with h2 | h2 | h2 | h2
          · exact absurd h2 (by decide)
          · exact absurd h2 (by decide)
          · exact absurd h2 (by decide)
          · exact h2
        have hne := skipWs_ne_nil_of_mem (by decide : jsonWs '{' = false) hin
        show (if (skipWs r').isEmpty = true then some JVal.null else none) = none
        rw [if_neg (by simpa using hne)]
      · exact absurd hres (by simp)
  rw [pVal_not_kw _ c0 (a' ++ m) hc0jw hn1 hn6 hn7 ht hf hn]
  cases hres : pNum (c0 :: (a' ++ m)) with
  | none => rfl
  | some p =>
    obtain ⟨v, r⟩ := p
    have hin : '{' ∈ r := pNum_rest_mem hres (by decide) (by decide)
      (List.mem_cons_of_mem c0 hmm)
    have hne := skipWs_ne_nil_of_mem (by decide : jsonWs '{' = false) hin
    show (if (skipWs r).isEmpty = true then some v else none) = none
    rw [if_neg (by simpa using hne)]

/-! #### Trim decomposition and brace slicing on embedded objects -/

theorem trim_concat (pre t post : List Char)
    (hth : ∀ c, t.head? = some c → isWsChar c = false)
    (htl : ∀ c, t.getLast? = some c → isWsChar c = false) (htn : t ≠ []) :
    trimList (pre ++ t ++ post) =
      pre.dropWhile isWsChar ++ t ++ (post.reverse.dropWhile isWsChar).reverse := by
  rw [trimList]
  have hL : (pre ++ t ++ post).dropWhile isWsChar =
      pre.dropWhile isWsChar ++ (t ++ post) := by
    rw [List.append_assoc, List.dropWhile_append]
    by_cases hp : (pre.dropWhile isWsChar).isEmpty
    · rw [if_pos hp]
      rw [dropWhile_eq_self_of_head isWsChar (t ++ post) (by
        intro c hc
        cases t with
        | nil => exact absurd rfl htn
        | cons a ts =>
          rw [List.cons_append] at hc
          obtain rfl : a = c := by simpa using hc
          exact hth a rfl)]
      rw [List.isEmpty_iff.mp hp, List.nil_append]
    · rw [if_neg hp]
  rw [hL]
  have hrev : (pre.dropWhile isWsChar ++ (t ++ post)).reverse =
      post.reverse ++ (t.reverse ++ (pre.dropWhile isWsChar).reverse) := by
    rw [List.reverse_append, List.reverse_append, List.append_assoc]
  rw [hrev, List.dropWhile_append]
  have hmid : (t.reverse ++ (pre.dropWhile isWsChar).reverse).dropWhile isWsChar =
      t.reverse ++ (pre.dropWhile isWsChar).reverse := by
    apply dropWhile_eq_self_of_head
    intro c hc
    have htr : t.reverse ≠ [] := by simpa using htn
    cases htrev : t.reverse with
    | nil => exact absurd htrev htr
    | cons b bs =>
      rw [htrev, List.cons_append] at hc
      obtain rfl : b = c := by simpa using hc
      apply htl
      rw [← List.head?_reverse, htrev]
      rfl
  by_cases hq : (post.reverse.dropWhile isWsChar).isEmpty
  · rw [if_pos hq, hmid, List.reverse_append, List.reverse_reverse,
      List.reverse_reverse, List.isEmpty_iff.mp hq]
    simp
  · rw [if_neg hq, List.reverse_append, List.reverse_append,
      List.reverse_reverse, List.reverse_reverse, List.append_assoc]

theorem fromFirstRb_append {a b : List Char} (h : '}' ∉ a) :
    fromFirstRb (a ++ b) = fromFirstRb b := by
  induction a with
  | nil => rfl
  | cons c cs ih =>
    rw [List.cons_append, fromFirstRb,
      if_neg (by simp at h; exact fun hc => h.1 hc.symm)]
    exact ih (by simp at h; exact h.2)

theorem mem_dropWhile_subset {p : Char → Bool} {x : Char} {l : List Char}
    (h : x ∈ l.dropWhile p) : x ∈ l := by
  obtain ⟨a, ha⟩ := dropWhile_decomp p l
  rw [ha]
  exact List.mem_append.mpr (Or.inr h)

/-- Brace slicing picks out exactly the embedded object text when the
surroundings are brace-free. -/
theorem sliceBraces_embedded (a m b2 : List Char) (ha : '{' ∉ a)
    (hb : '}' ∉ b2) (hm1 : ∃ r, m = '{' :: r) (hm2 : m.getLast? = some '}') :
    sliceBraces (a ++ m ++ b2) = some m := by
  obtain ⟨r, rfl⟩ := hm1
  have hr : r ≠ [] := by
    intro hnil
    rw [hnil] at hm2
    exact absurd (Option.some_inj.mp hm2) (by decide)
  obtain ⟨q, hq⟩ : ∃ q, r.reverse = '}' :: q := by
    have hrl : r.getLast? = some '}' := by
      rw [← List.getLast?_append_of_ne_nil ['{'] hr]
      exact hm2
    rw [← List.head?_reverse] at hrl
    cases hrev : r.reverse with
    | nil => rw [hrev] at hrl; exact absurd hrl (by simp)
    | cons z zs =>
      rw [hrev] at hrl
      obtain rfl : z = '}' := by simpa using hrl
      exact ⟨zs, rfl⟩
  rw [sliceBraces, List.append_assoc, fromFirstLb_append ha,
    show ('{' :: r) ++ b2 = '{' :: (r ++ b2) from rfl,
    fromFirstLb, if_pos rfl, Option.some_bind]
  rw [show ('{' :: (r ++ b2)).reverse = (r ++ b2).reverse ++ ['{'] from by simp,
    List.reverse_append, List.append_assoc,
    fromFirstRb_append (by simpa using hb), hq,
    show ('}' :: q) ++ (['{'] : List Char) = '}' :: (q ++ ['{']) from rfl,
    fromFirstRb, if_pos rfl]
  rw [Option.map_some']
  congr 1
  -- ('}' :: (q ++ ['{'])).reverse = '{' :: r
  rw [show ('}' :: (q ++ ['{'])).reverse = (q ++ ['{']).reverse ++ ['}'] from by simp,
    List.reverse_append, show (['{'] : List Char).reverse = ['{'] from rfl]
  have hrq : r = q.reverse ++ ['}'] := by
    have h4 := congrArg List.reverse hq
    rwa [List.reverse_reverse, List.reverse_cons] at h4
  rw [List.append_assoc, ← hrq]
  rfl

/-! #### Assembling extractJsonFromText -/

theorem tryParse_some {s : List Char} {v : JVal} (h : parseJson s = some v) :
    tryParse s = some v := by
  rw [tryParse, h]

theorem tryParse_none {s : List Char} (h : parseJson s = none)
    (hesc : escNl s = s) : tryParse s = none := by
  rw [tryParse, h, hesc, h]

theorem extract_ok_of_tryParse {l : List Char} {v : JVal}
    (h : tryParse (cleanedOf l) = some v) :
    extractJsonFromText l = .ok v := by
  unfold extractJsonFromText
  simp only [h]

theorem extract_slice_ok {l m : List Char} {v : JVal}
    (h1 : tryParse (cleanedOf l) = none) (h2 : sliceBraces (cleanedOf l) = some m)
    (h3 : tryParse m = some v) : extractJsonFromText l = .ok v := by
  unfold extractJsonFromText
  simp only [h1, h2, h3]

theorem extract_error_of {l : List Char}
    (h1 : tryParse (cleanedOf l) = none) (h2 : sliceBraces (cleanedOf l) = none) :
    extractJsonFromText l = .error "No JSON object found in Claude output." := by
  unfold extractJsonFromText
  simp only [h1, h2]

theorem sv_no_ctrl {o : JVal} (h : svOk o = true) :
    ∀ c ∈ sv o, c ≠ '\n' ∧ c ≠ '\x0d' := by
  intro c hc
  have h2 : 32 ≤ c.toNat := by simpa using List.all_eq_true.mp h c hc
  constructor <;> rintro rfl <;> exact absurd h2 (by decide)

theorem proseOk_mem {l : List Char} (h : proseOk l = true) :
    ∀ c ∈ l, proseChar c = true := by
  intro c hc
  simpa using List.all_eq_true.mp h c hc

theorem sv_obj_lb_mem (kvs : List (List Char × JVal)) : '{' ∈ sv (JVal.obj kvs) := by
  rw [sv_obj_shape]
  simp

theorem parseJson_obj_trailing (kvs : List (List Char × JVal)) (postT : List Char)
    (hok : svOk (JVal.obj kvs) = true) (hpt : postT ≠ [])
    (hlast : ∀ c, postT.getLast? = some c → isWsChar c = false) :
    parseJson (sv (JVal.obj kvs) ++ postT) = none := by
  have hb := (measure_le_sv (mval (JVal.obj kvs))).1 _ (le_refl _)
  have hlen : (sv (JVal.obj kvs) ++ postT).length =
      (sv (JVal.obj kvs)).length + postT.length := List.length_append _ _
  have hpv : pVal ((sv (JVal.obj kvs) ++ postT).length + 1)
      (sv (JVal.obj kvs) ++ postT) = some (JVal.obj kvs, postT) := by
    apply (rt_main _).1 _ _ hok
      (by rintro ⟨i, hi⟩; exact absurd hi (by simp))
    omega
  rw [parseJson, hpv]
  obtain ⟨c, hc⟩ : ∃ c, postT.getLast? = some c := by
    cases hpost : postT.getLast? with
    | none => exact absurd (List.getLast?_eq_none_iff.mp hpost) hpt
    | some c => exact ⟨c, rfl⟩
  have hne := skipWs_ne_nil_of_mem (isWs_false_jsonWs (hlast c hc))
    (mem_of_getLast?_eq _ c hc)
  show (if (skipWs postT).isEmpty = true then some (JVal.obj kvs) else none) = none
  rw [if_neg (by simpa using hne)]

/-- **C5.** For a model JSON object value whose serialization contains no
triple-backtick run, `extractJsonFromText` recovers the object from (a)
the bare serialization, (b) the serialization wrapped in a markdown
` ```json ... ``` ` fence, and (c) the serialization embedded in prose
(over a brace-, quote-, backtick- and newline-free prose charset); and
whenever the cleaned input fails both parse attempts and has no
`{`…`}` pair, the function fails with the no-JSON-object error. -/
theorem c5_extract_recovery (kvs : List (List Char × JVal))
    (hok : svOk (JVal.obj kvs) = true)
    (hfree : hasM fence3 (sv (JVal.obj kvs)) = false) :
    extractJsonFromText (sv (JVal.obj kvs)) = .ok (JVal.obj kvs) ∧
    extractJsonFromText (fenceWrap (sv (JVal.obj kvs))) = .ok (JVal.obj kvs) ∧
    (∀ pre post : List Char, proseOk pre = true → proseOk post = true →
      extractJsonFromText (pre ++ sv (JVal.obj kvs) ++ post) = .ok (JVal.obj kvs)) ∧
    (∀ l : List Char, tryParse (cleanedOf l) = none →
      (∀ a b, cleanedOf l = a ++ '{' :: b → '}' ∉ b) →
      extractJsonFromText l = .error "No JSON object found in Claude output.") := by
  have hparse : parseJson (sv (JVal.obj kvs)) = some (JVal.obj kvs) := parse_sv _ hok
  refine ⟨?_, ?_, ?_, ?_⟩
  · apply extract_ok_of_tryParse
    rw [cleanedOf_id_obj kvs hfree]
    exact tryParse_some hparse
  · apply extract_ok_of_tryParse
    rw [cleanedOf_fenceWrap_obj kvs hfree]
    exact tryParse_some hparse
  · intro pre post hpre hpost
    have hpreP := proseOk_mem hpre
    have hpostP := proseOk_mem hpost
    have hticks : hasM fence3 (pre ++ sv (JVal.obj kvs) ++ post) = false := by
      rw [List.append_assoc]
      exact hasM_fence3_concat_left
        (fun c hc => (proseChar_not (hpreP c hc)).2.2.1)
        (hasM_fence3_concat hfree
          (fun c hc => (proseChar_not (hpostP c hc)).2.2.1))
    have h7 : hasM fenceJson (pre ++ sv (JVal.obj kvs) ++ post) = false :=
      hasM_mono fence3 ['j', 's', 'o', 'n'] _ hticks
    have hclean : cleanedOf (pre ++ sv (JVal.obj kvs) ++ post) =
        pre.dropWhile isWsChar ++ sv (JVal.obj kvs) ++
          (post.reverse.dropWhile isWsChar).reverse := by
      rw [cleanedOf, removeAll_id _ _ _ h7, removeAll_id _ _ _ hticks]
      refine trim_concat pre _ post ?_ ?_ (by rw [sv_obj_shape]; simp)
      · intro c hc
        rw [sv_obj_head] at hc
        obtain rfl := Option.some_inj.mp hc
        decide
      · intro c hc
        rw [sv_obj_last] at hc
        obtain rfl := Option.some_inj.mp hc
        decide
    have hpostT_mem : ∀ c ∈ (post.reverse.dropWhile isWsChar).reverse, c ∈ post := by
      intro c hc
      rw [List.mem_reverse] at hc
      have h2 := mem_dropWhile_subset hc
      rwa [List.mem_reverse] at h2
    have hpostT_last : ∀ c, ((post.reverse.dropWhile isWsChar).reverse).getLast? =
        some c → isWsChar c = false := by
      intro c hc
      rw [List.getLast?_reverse] at hc
      exact head_dropWhile_false isWsChar post.reverse c hc
    have hescid : escNl (pre.dropWhile isWsChar ++ sv (JVal.obj kvs) ++
        (post.reverse.dropWhile isWsChar).reverse) =
        pre.dropWhile isWsChar ++ sv (JVal.obj kvs) ++
          (post.reverse.dropWhile isWsChar).reverse := by
      apply escNl_id
      intro c hc
      rcases List.mem_append.mp hc with hc | hc
      · rcases List.mem_append.mp hc with hc | hc
        · have hcp := hpreP c (mem_dropWhile_subset hc)
          exact ⟨(proseChar_not hcp).2.2.2.1, (proseChar_not hcp).2.2.2.2.1⟩
        · exact sv_no_ctrl hok c hc
      · have hcp := hpostP c (hpostT_mem c hc)
        exact ⟨(proseChar_not hcp).2.2.2.1, (proseChar_not hcp).2.2.2.2.1⟩
    by_cases hpreN : pre.dropWhile isWsChar = []
    · by_cases hpostN : (post.reverse.dropWhile isWsChar).reverse = []
      · apply extract_ok_of_tryParse
        rw [hclean, hpreN, hpostN, List.nil_append, List.append_nil]
        exact tryParse_some hparse
      · apply extract_slice_ok (m := sv (JVal.obj kvs))
        · rw [hclean, hpreN, List.nil_append]
          apply tryParse_none
          · exact parseJson_obj_trailing kvs _ hok hpostN hpostT_last
          · rw [hpreN, List.nil_append] at hescid
            exact hescid
        · rw [hclean, hpreN, List.nil_append]
          exact sliceBraces_embedded [] _ _ (by simp)
            (fun hmem => absurd rfl
              (proseChar_not (hpostP '}' (hpostT_mem '}' hmem))).2.1)
            ⟨_, sv_obj_shape kvs⟩ (sv_obj_last kvs)
        · exact tryParse_some hparse
    · apply extract_slice_ok (m := sv (JVal.obj kvs))
      · rw [hclean]
        apply tryParse_none
        · rw [List.append_assoc]
          apply parseJson_prose_front _ _ hpreN
          · exact fun c hc => hpreP c (mem_dropWhile_subset hc)
          · exact fun c hc => head_dropWhile_false isWsChar pre c hc
          · exact List.mem_append.mpr (Or.inl (sv_obj_lb_mem kvs))
        · exact hescid
      · rw [hclean]
        exact sliceBraces_embedded _ _ _
          (fun hmem => absurd rfl
            (proseChar_not (hpreP '{' (mem_dropWhile_subset hmem))).1)
          (fun hmem => absurd rfl
            (proseChar_not (hpostP '}' (hpostT_mem '}' hmem))).2.1)
          ⟨_, sv_obj_shape kvs⟩ (sv_obj_last kvs)
      · exact tryParse_some hparse
  · intro l h1 h2
    exact extract_error_of h1 (sliceBraces_none h2)

/-- The object whose single field holds the string `"``` "` (three
backticks). -/
def c5Bad : JVal := JVal.obj [(['a'], JVal.str fence3)]

/-- **C5 counterexample.** The claim asserts recovery on the bare
serialization of every JSON object.  For the object `{"a":"```"}` the
fence-stripping pass deletes the backticks inside the string literal, so
extraction succeeds but returns the wrong object `{"a":""}`. -/
theorem c5_counterexample :
    extractJsonFromText (sv c5Bad) = .ok (JVal.obj [(['a'], JVal.str [])]) ∧
    JVal.obj [(['a'], JVal.str [])] ≠ c5Bad := by
  refine ⟨rfl, ?_⟩
  intro h
  simp [c5Bad, fence3] at h

theorem c5_extract_recovery_witness :
    (svOk (JVal.obj [(['a'], JVal.num 3)]) = true ∧
      hasM fence3 (sv (JVal.obj [(['a'], JVal.num 3)])) = false) ∧
    extractJsonFromText (fenceWrap (sv (JVal.obj [(['a'], JVal.num 3)]))) =
      .ok (JVal.obj [(['a'], JVal.num 3)]) :=
  ⟨⟨by decide, by decide⟩,
    (c5_extract_recovery [(['a'], JVal.num 3)] (by decide) (by decide)).2.1⟩

/-! ### readWorkflow and the GET route (server/index.ts lines 116–124,
323–328) -/

/-- The three outcomes of `fs.readFile` on the stored record: the file is
absent (ENOENT), unreadable (any other I/O failure), or yields raw text. -/
inductive ReadResult where
  | missing
  | unreadable
  | content (raw : List Char)

/-- `readWorkflow`: `JSON.parse(await readFile(...))` in a try/catch whose
catch returns `null` — every read or parse exception becomes `null`. -/
def readWorkflow : ReadResult → Option JVal
  | .missing => none
  | .unreadable => none
  | .content raw =>
    match parseJson raw with
    | some v => some v
    | none => none

/-- The two exits of the GET handler. -/
inductive HttpResponse where
  | ok (body : JVal)
  | notFound

/-- JS falsiness of a parsed JSON value, as tested by `if (!wf)`. -/
def jvFalsy : JVal → Bool
  | .null => true
  | .bool b => !b
  | .num i => i == 0
  | .str s => s.isEmpty
  | _ => false

/-- `GET /api/workflows/:workflowUUID`: 404 when `readWorkflow` returns a
falsy value, 200 with the record otherwise. -/
def getWorkflowRoute (rr : ReadResult) : HttpResponse :=
  match readWorkflow rr with
  | none => .notFound
  | some v => if jvFalsy v then .notFound else .ok v

/-- **C10.** The fetch-by-id route responds 404 when the record file is
missing, when reading it fails, and when its contents do not parse as
JSON — `readWorkflow` converts every read or parse exception into `null`,
so all three cases are indistinguishable at the endpoint — and the
response is always either 200 or 404, never a server error. -/
theorem c10_corrupt_reads_404 (rr : ReadResult) :
    (rr = .missing → getWorkflowRoute rr = .notFound) ∧
    (rr = .unreadable → getWorkflowRoute rr = .notFound) ∧
    (∀ raw, rr = .content raw → parseJson raw = none →
      getWorkflowRoute rr = .notFound) ∧
    (getWorkflowRoute rr = .notFound ∨ ∃ v, getWorkflowRoute rr = .ok v) := by
  refine ⟨?_, ?_, ?_, ?_⟩
  · rintro rfl; rfl
  · rintro rfl; rfl
  · rintro raw rfl hp
    rw [getWorkflowRoute, readWorkflow, hp]
  · cases hr : getWorkflowRoute rr with
    | notFound => exact Or.inl rfl
    | ok v => exact Or.inr ⟨v, rfl⟩

theorem c10_corrupt_reads_404_witness :
    parseJson ['x'] = none ∧
    getWorkflowRoute (ReadResult.content ['x']) = .notFound :=
  ⟨rfl, (c10_corrupt_reads_404 (ReadResult.content ['x'])).2.2.1 ['x'] rfl rfl⟩

end ARWB
